import Mathlib

/-!
Verification of the specification/option reconciliation engine of the
Buyer-Specification-Creation repository.

The engine is embedded shallowly: strings are lists of characters, the
JavaScript string operations used by the source (toLowerCase, trim,
includes, split on whitespace, the numeric regexes) are modelled by
executable Lean functions on character lists, and every function of the
source that the claims mention is translated definition by definition.
Numbers extracted by parseFloat from decimal literals are modelled as
exact rationals.
-/

namespace BuyerSpec

/-- A JavaScript string, modelled as its list of characters. -/
abbrev Str := List Char

/-- Conversion from a Lean string literal to the character-list model. -/
def str (s : String) : Str := s.data

/-- JS whitespace (the characters matched by the regex class backslash-s
that occur in this code base): space, tab, newline, carriage return,
vertical tab, form feed. -/
def isWs (c : Char) : Bool :=
  c.toNat = 32 || c.toNat = 9 || c.toNat = 10 || c.toNat = 13 ||
  c.toNat = 11 || c.toNat = 12

/-- JS String.prototype.toLowerCase restricted to ASCII, which is all the
source tables use. -/
def lower (s : Str) : Str := s.map Char.toLower

/-- JS String.prototype.trim: drop whitespace from both ends. -/
def trim (s : Str) : Str :=
  ((s.dropWhile isWs).reverse.dropWhile isWs).reverse

/-- The characters replaced by a space in normalizeSpecName:
( ) - _ , . ; -/
def isPunctRepl (c : Char) : Bool :=
  c.toNat = 40 || c.toNat = 41 || c.toNat = 45 || c.toNat = 95 ||
  c.toNat = 44 || c.toNat = 46 || c.toNat = 59

/-- The replace step of normalizeSpecName: punctuation to spaces. -/
def replacePunct (s : Str) : Str :=
  s.map (fun c => if isPunctRepl c then Char.ofNat 32 else c)

/-- JS a.includes(b): b occurs as a contiguous substring of a.  Note the
empty string is a substring of every string, exactly as in JS. -/
def includes (a b : Str) : Bool := decide (b <:+: a)

/-- Auxiliary tokenizer: split on whitespace runs, accumulator holds the
current word reversed. -/
def tokensAux : Str → Str → List Str
  | [], acc => if acc = [] then [] else [acc.reverse]
  | c :: s, acc =>
    if isWs c then
      if acc = [] then tokensAux s [] else acc.reverse :: tokensAux s []
    else tokensAux s (c :: acc)

/-- JS split on the whitespace regex followed by dropping empty tokens. -/
def tokens (s : Str) : List Str := tokensAux s []

/-- JS spread of a Set built from a list: keep the first occurrence of
each element, preserving order. -/
def dedupFirstAux {α : Type} [DecidableEq α] (seen : List α) : List α → List α
  | [] => []
  | a :: l =>
    if a ∈ seen then dedupFirstAux seen l
    else a :: dedupFirstAux (a :: seen) l

/-- Keep first occurrences, as the JS idiom spread-of-new-Set does. -/
def dedupFirst {α : Type} [DecidableEq α] (l : List α) : List α :=
  dedupFirstAux [] l

/-- JS Array.prototype.join with a single space. -/
def joinSpaces : List Str → Str
  | [] => []
  | [w] => w
  | w :: ws => w ++ Char.ofNat 32 :: joinSpaces ws

/-- The standardizations dictionary of normalizeSpecName, in insertion
order (JS object string keys preserve insertion order). -/
def standardizations : List (Str × Str) := [
  (str ("material"), str ("material")),
  (str ("grade"), str ("grade")),
  (str ("thk"), str ("thickness")),
  (str ("thickness"), str ("thickness")),
  (str ("type"), str ("type")),
  (str ("shape"), str ("shape")),
  (str ("size"), str ("size")),
  (str ("dimension"), str ("size")),
  (str ("length"), str ("length")),
  (str ("width"), str ("width")),
  (str ("height"), str ("height")),
  (str ("dia"), str ("diameter")),
  (str ("diameter"), str ("diameter")),
  (str ("color"), str ("color")),
  (str ("colour"), str ("color")),
  (str ("finish"), str ("finish")),
  (str ("surface"), str ("finish")),
  (str ("weight"), str ("weight")),
  (str ("wt"), str ("weight")),
  (str ("capacity"), str ("capacity")),
  (str ("brand"), str ("brand")),
  (str ("model"), str ("model")),
  (str ("quality"), str ("quality")),
  (str ("standard"), str ("standard")),
  (str ("specification"), str ("spec")),
  (str ("perforation"), str ("hole")),
  (str ("hole"), str ("hole")),
  (str ("pattern"), str ("pattern")),
  (str ("design"), str ("design")),
  (str ("application"), str ("application")),
  (str ("usage"), str ("application"))]

/-- The value the program produces for the token constructor: the JS
truthy property test on the standardizations object also sees the
inherited Object.prototype.constructor through the prototype chain, so
the map step returns the Object function itself, which the final
Array.prototype.join stringifies to this string.  The token constructor
is the only token that can reach an inherited property: all other
Object.prototype member names contain upper-case letters (tokens are
lower-cased first) or underscores (replaced by spaces before
tokenizing). -/
def protoConstructorStr : Str :=
  str ("function Object() \x7b [native code] \x7d")

/-- The per-word standardization step of normalizeSpecName: the truthy
property lookup (own entries by exact key, then the inherited
constructor through the prototype chain), then the
substring-containment scan over the own entries in insertion order,
else the word unchanged. -/
def standardizeWord (w : Str) : Str :=
  match standardizations.find? (fun kv => decide (kv.1 = w)) with
  | some kv => kv.2
  | none =>
    if w = str ("constructor") then protoConstructorStr
    else
      match standardizations.find? (fun kv => includes w kv.1 || includes kv.1 w) with
      | some kv => kv.2
      | none => w

/-- The filler-word list of normalizeSpecName (Stage3Results variant,
which also filters the word to). -/
def fillerWords : List Str :=
  [str ("sheet"), str ("plate"), str ("pipe"), str ("rod"), str ("bar"),
   str ("in"), str ("for"), str ("of"), str ("the"), str ("to")]

/-- normalizeSpecName from Stage3Results.tsx: lower-case and trim, map
punctuation to spaces, tokenize, standardize each word, de-duplicate
keeping first occurrences, remove filler words, join with spaces. -/
def normalizeSpecName (name : Str) : Str :=
  let normalized := replacePunct (trim (lower name))
  let ws := tokens normalized
  let standardizedWords := ws.map standardizeWord
  let uniqueWords := dedupFirst standardizedWords
  let filteredWords := uniqueWords.filter (fun w => decide (w ∉ fillerWords))
  trim (joinSpaces filteredWords)

/-- The synonym groups of isSemanticallySimilar. -/
def synonymGroups : List (List Str) := [
  [str ("material"), str ("composition"), str ("fabric")],
  [str ("grade"), str ("quality"), str ("class"), str ("standard")],
  [str ("thickness"), str ("thk"), str ("gauge")],
  [str ("size"), str ("dimension"), str ("measurement")],
  [str ("diameter"), str ("dia"), str ("bore")],
  [str ("length"), str ("long"), str ("lng")],
  [str ("width"), str ("breadth"), str ("wide")],
  [str ("height"), str ("high"), str ("depth")],
  [str ("color"), str ("colour"), str ("shade")],
  [str ("finish"), str ("surface"), str ("coating"), str ("polish")],
  [str ("weight"), str ("wt"), str ("mass")],
  [str ("type"), str ("kind"), str ("variety"), str ("style")],
  [str ("shape"), str ("form"), str ("profile")],
  [str ("hole"), str ("perforation"), str ("aperture")],
  [str ("pattern"), str ("design"), str ("arrangement")],
  [str ("application"), str ("use"), str ("purpose"), str ("usage")]]

/-- isSemanticallySimilar from Stage3Results.tsx: the Name Matcher.
Normalized equality, then mutual substring containment, then shared
synonym-group membership by substring. -/
def isSemanticallySimilar (spec1 spec2 : Str) : Bool :=
  let norm1 := normalizeSpecName spec1
  let norm2 := normalizeSpecName spec2
  if norm1 = norm2 then true
  else if includes norm1 norm2 || includes norm2 norm1 then true
  else synonymGroups.any (fun g =>
    g.any (fun w => includes norm1 w) && g.any (fun w => includes norm2 w))

/-- ASCII digit test, as the regex digit class. -/
def isDigit (c : Char) : Bool := 48 ≤ c.toNat && c.toNat ≤ 57

/-- Value of a digit string. -/
def digitsToNat (ds : Str) : Nat :=
  ds.foldl (fun n c => 10 * n + (c.toNat - 48)) 0

/-- Parse a leading number of the form digits optionally followed by a
point and more digits (the regex for a number token), returning its
exact rational value and the rest of the string.  Fails unless the
string starts with a digit. -/
def parseLeadingNum (s : Str) : Option (ℚ × Str) :=
  let ip := s.takeWhile isDigit
  if ip = [] then none
  else
    match s.dropWhile isDigit with
    | c :: r2 =>
      if c.toNat = 46 then
        let fp := r2.takeWhile isDigit
        if fp = [] then some ((digitsToNat ip : ℚ), c :: r2)
        else some (mkRat (digitsToNat ip * 10 ^ fp.length + digitsToNat fp) (10 ^ fp.length),
                   r2.dropWhile isDigit)
      else some ((digitsToNat ip : ℚ), c :: r2)
    | [] => some ((digitsToNat ip : ℚ), [])

/-- extractValue from Stage3Results.tsx: the first number token in the
string, if any (regex match of a number anywhere in the string). -/
def extractValue : Str → Option ℚ
  | [] => none
  | c :: s =>
    if isDigit c then (parseLeadingNum (c :: s)).map Prod.fst
    else extractValue s

/-- One scan step of the global number regex, fuelled by the string
length so the recursion is structural. -/
def extractNumsFuel : Nat → Str → List ℚ
  | 0, _ => []
  | _, [] => []
  | fuel + 1, c :: s =>
    if isDigit c then
      match parseLeadingNum (c :: s) with
      | some (q, rest) => q :: extractNumsFuel fuel rest
      | none => extractNumsFuel fuel s
    else extractNumsFuel fuel s

/-- extractAllNumbers from checkRangeMatch in api.ts: all number tokens
in the string, left to right, non-overlapping. -/
def extractAllNumbers (s : Str) : List ℚ := extractNumsFuel (s.length + 1) s

/-- Consume the range connector of the isValueInRange regex at the head
of the string: the word to (case-insensitive), an en dash, or a
hyphen. -/
def stripConnector (s : Str) : Option Str :=
  match s with
  | c1 :: c2 :: r =>
    if (Char.toLower c1).toNat = 116 && (Char.toLower c2).toNat = 111 then some r
    else if c1.toNat = 8211 || c1.toNat = 45 then some (c2 :: r)
    else none
  | [c1] =>
    if c1.toNat = 8211 || c1.toNat = 45 then some [] else none
  | [] => none

/-- Try the isValueInRange range regex anchored at the current position:
number, optional whitespace, connector, optional whitespace, number. -/
def tryRangeAt (s : Str) : Option (ℚ × ℚ) :=
  match parseLeadingNum s with
  | none => none
  | some (n1, r1) =>
    match stripConnector (r1.dropWhile isWs) with
    | none => none
    | some r3 =>
      match parseLeadingNum (r3.dropWhile isWs) with
      | none => none
      | some (n2, _) => some (n1, n2)

/-- First match of the isValueInRange range regex anywhere in the
string. -/
def parseRangePair : Str → Option (ℚ × ℚ)
  | [] => none
  | c :: s =>
    match tryRangeAt (c :: s) with
    | some r => some r
    | none => parseRangePair s

/-- isValueInRange from Stage3Results.tsx: the first group of the range
regex is taken as the minimum and the second as the maximum (they are
not reordered), and containment is inclusive. -/
def isValueInRange (value : ℚ) (rangeStr : Str) : Bool :=
  match parseRangePair rangeStr with
  | none => false
  | some (mn, mx) => decide (mn ≤ value) && decide (value ≤ mx)

/-- Material and grade groups of areOptionsSimilar. -/
def materialGroups : List (List Str) := [
  [str ("304"), str ("ss304"), str ("ss 304"), str ("stainless steel 304")],
  [str ("316"), str ("ss316"), str ("ss 316"), str ("stainless steel 316")],
  [str ("430"), str ("ss430"), str ("ss 430")],
  [str ("201"), str ("ss201"), str ("ss 201")],
  [str ("202"), str ("ss202"), str ("ss 202")],
  [str ("310"), str ("ss310"), str ("ss 310")],
  [str ("304l"), str ("304 l")],
  [str ("316l"), str ("316 l")],
  [str ("ms"), str ("mild steel"), str ("carbon steel")],
  [str ("gi"), str ("galvanized iron")],
  [str ("aluminium"), str ("aluminum")],
  [str ("is 2062 e250"), str ("e250")],
  [str ("is 2062 e350"), str ("e350")],
  [str ("is 2062 e410"), str ("e410")],
  [str ("astm a36"), str ("a36")],
  [str ("jis g3101 ss400"), str ("ss400")],
  [str ("en s275jr"), str ("s275jr")],
  [str ("en s355jr"), str ("s355jr")]]

/-- Brand groups of areOptionsSimilar. -/
def brandGroups : List (List Str) := [
  [str ("sail"), str ("steel authority of india")],
  [str ("tata steel"), str ("tata")],
  [str ("jsw steel"), str ("jsw")],
  [str ("essar steel"), str ("essar")],
  [str ("jindal steel"), str ("jindal")],
  [str ("bhushan steel"), str ("bhushan")],
  [str ("jspl"), str ("jindal steel & power")],
  [str ("arcelormittal"), str ("arcelor mittal")]]

/-- Finish groups of areOptionsSimilar. -/
def finishGroups : List (List Str) := [
  [str ("hot rolled black"), str ("hot rolled"), str ("black")],
  [str ("pickled & oiled"), str ("pickled"), str ("oiled")],
  [str ("shot blasted"), str ("shot blast")],
  [str ("descaled"), str ("descaling")],
  [str ("mill finish"), str ("mill")],
  [str ("polished"), str ("mirror")],
  [str ("galvanized"), str ("gi"), str ("galvanize")],
  [str ("anodized"), str ("anodize")],
  [str ("painted"), str ("coated")]]

/-- A group hits when some member occurs as a substring of each side. -/
def groupMatch (groups : List (List Str)) (c1 c2 : Str) : Bool :=
  groups.any (fun g =>
    g.any (fun t => includes c1 t) && g.any (fun t => includes c2 t))

/-- areOptionsSimilar from Stage3Results.tsx: the semantic option
matcher used by the third pass of the common-options computation. -/
def areOptionsSimilar (opt1 opt2 : Str) : Bool :=
  if opt1 = [] || opt2 = [] then false
  else
    let clean1 := trim (lower opt1)
    let clean2 := trim (lower opt2)
    if clean1 = clean2 then true
    else
      groupMatch materialGroups clean1 clean2 ||
      groupMatch brandGroups clean1 clean2 ||
      groupMatch finishGroups clean1 clean2

/-- The trim-then-lowercase cleaning applied to option values before set
membership tests throughout the source. -/
def cleanOpt (s : Str) : Str := lower (trim s)

/-- State threaded through the three passes of
findCommonOptionsWithRangeMatching.  The fields common, used and added
are the arrays and sets of the source; consumed is a ghost log that
records, in order, every target index added to the used set — it exists
only so the no-double-consumption property can be stated. -/
structure CState where
  common : List Str
  used : List Nat
  added : List Str
  consumed : List Nat
deriving DecidableEq, Repr

/-- findIndex over the target options skipping used indices, testing
trimmed-lower-cased equality (pass one of the common-options scan). -/
def findExactIdx (options2 : List Str) (used : List Nat) (c1 : Str) : Option Nat :=
  (options2.enum.find? (fun p =>
    !(decide (p.1 ∈ used)) && decide (cleanOpt p.2 = c1))).map Prod.fst

/-- Pass one of findCommonOptionsWithRangeMatching: exact matches. -/
def pass1 (options2 : List Str) : List Str → CState → CState
  | [], st => st
  | o1 :: rest, st =>
    let c1 := cleanOpt o1
    let st1 :=
      match findExactIdx options2 st.used c1 with
      | some j =>
        if c1 ∈ st.added then st
        else { common := st.common ++ [o1], used := j :: st.used,
               added := c1 :: st.added, consumed := st.consumed ++ [j] }
      | none => st
    pass1 options2 rest st1

/-- findIndex over the target options skipping used indices, testing
range containment of a source value (forward direction of pass two). -/
def findRangeIdx (options2 : List Str) (used : List Nat) (v : ℚ) : Option Nat :=
  (options2.enum.find? (fun p =>
    !(decide (p.1 ∈ used)) && isValueInRange v p.2)).map Prod.fst

/-- Forward direction of pass two: a discrete source value matched
against target ranges. -/
def pass2fwd (options2 : List Str) : List Str → CState → CState
  | [], st => st
  | o1 :: rest, st =>
    let st1 :=
      if cleanOpt o1 ∈ st.added then st
      else
        match extractValue o1 with
        | none => st
        | some v =>
          match findRangeIdx options2 st.used v with
          | some j =>
            if cleanOpt o1 ∈ st.added then st
            else { common := st.common ++ [o1], used := j :: st.used,
                   added := cleanOpt o1 :: st.added, consumed := st.consumed ++ [j] }
          | none => st
    pass2fwd options2 rest st1

/-- Reverse direction of pass two: a discrete target value matched
against source ranges.  The source finds the first source range
containing the value; since an empty string never parses as a range the
truthiness test of the source is existence. -/
def pass2rev (options1 : List Str) : List (Nat × Str) → CState → CState
  | [], st => st
  | (j, o2) :: rest, st =>
    let st1 :=
      if j ∈ st.used then st
      else
        match extractValue o2 with
        | none => st
        | some v =>
          if options1.any (fun o1 => isValueInRange v o1) then
            if cleanOpt o2 ∈ st.added then st
            else { common := st.common ++ [o2], used := j :: st.used,
                   added := cleanOpt o2 :: st.added, consumed := st.consumed ++ [j] }
          else st
    pass2rev options1 rest st1

/-- Inner loop of pass three over the enumerated target options. -/
def pass3inner (o1 : Str) (c1 : Str) : List (Nat × Str) → CState → CState
  | [], st => st
  | (j, o2) :: rest, st =>
    let st1 :=
      if j ∈ st.used then st
      else if c1 ∈ st.added then st
      else if areOptionsSimilar o1 o2 && !(decide (c1 ∈ st.added)) then
        { common := st.common ++ [o1], used := j :: st.used,
          added := c1 :: st.added, consumed := st.consumed ++ [j] }
      else st
    pass3inner o1 c1 rest st1

/-- Pass three of findCommonOptionsWithRangeMatching: semantic matches
for materials, grades, brands and finishes. -/
def pass3 (options2 : List Str) : List Str → CState → CState
  | [], st => st
  | o1 :: rest, st =>
    let c1 := cleanOpt o1
    let st1 := if c1 ∈ st.added then st else pass3inner o1 c1 options2.enum st
    pass3 options2 rest st1

/-- The measurable-quantity names that switch on the range passes. -/
def rangeSpecTerms : List Str :=
  [str ("thickness"), str ("width"), str ("length"), str ("diameter"), str ("size")]

/-- Does the normalized spec name suggest a range-valued quantity. -/
def isRangeSpec (normName : Str) : Bool :=
  rangeSpecTerms.any (fun t => includes normName t)

/-- The full state after running the passes of
findCommonOptionsWithRangeMatching. -/
def runCommonState (options1 options2 : List Str) (normName : Str) : CState :=
  let st0 : CState := ⟨[], [], [], []⟩
  let st1 := pass1 options2 options1 st0
  let st2 :=
    if isRangeSpec normName then
      pass2rev options1 options2.enum (pass2fwd options2 options1 st1)
    else st1
  pass3 options2 options1 st2

/-- findCommonOptionsWithRangeMatching from Stage3Results.tsx. -/
def findCommonOptionsWithRangeMatching
    (options1 options2 : List Str) (normName : Str) : List Str :=
  (runCommonState options1 options2 normName).common

/-- A common spec as produced by extractCommonAndBuyerSpecs. -/
structure CommonSpecItem where
  spec_name : Str
  options : List Str
  input_type : Str
  category : Str
deriving DecidableEq, Repr

/-- A buyer ISQ as produced by selectBuyerISQs. -/
structure BuyerISQItem where
  spec_name : Str
  options : List Str
  category : Str
deriving DecidableEq, Repr

/-- The curated high-value attribute terms of selectBuyerISQs. -/
def importantSpecTerms : List Str :=
  [str ("grade"), str ("thickness"), str ("material"), str ("size"),
   str ("width"), str ("length")]

/-- The score of a common spec in selectBuyerISQs: tier weight plus
option count capped at ten plus the importance bonus. -/
def scoreSpec (spec : CommonSpecItem) : Nat :=
  (if spec.category = str ("Primary") then 10 else 0) +
  (if spec.category = str ("Secondary") then 5 else 0) +
  min spec.options.length 10 +
  (if importantSpecTerms.any (fun t => includes (lower spec.spec_name) t)
   then 5 else 0)

/-- Stable descending insertion by score (the JS sort comparator
subtracts scores; Array.prototype.sort is stable, so an earlier spec
stays before later specs of equal score: the inserted element, which
precedes the rest in the original list, goes before every element whose
score is not strictly greater). -/
def insertByScoreDesc (x : CommonSpecItem) :
    List CommonSpecItem → List CommonSpecItem
  | [] => [x]
  | y :: l =>
    if scoreSpec y ≤ scoreSpec x then x :: y :: l
    else y :: insertByScoreDesc x l

/-- Stable sort by descending score. -/
def sortByScoreDesc : List CommonSpecItem → List CommonSpecItem
  | [] => []
  | x :: l => insertByScoreDesc x (sortByScoreDesc l)

/-- Accumulator of deduplicateOptions: the seen set holds the
trimmed-lower-cased values already kept. -/
def dedupOptsAux (seen : List Str) : List Str → List Str
  | [] => []
  | opt :: rest =>
    if cleanOpt opt ∈ seen then dedupOptsAux seen rest
    else opt :: dedupOptsAux (cleanOpt opt :: seen) rest

/-- deduplicateOptions from Stage3Results.tsx: keep first occurrences by
trimmed-lower-cased identity, then slice to at most eight. -/
def deduplicateOptions (options : List Str) : List Str :=
  (dedupOptsAux [] options).take 8

/-- selectBuyerISQs from Stage3Results.tsx: score, sort descending, take
the top two, and deduplicate each option list to at most eight. -/
def selectBuyerISQs (commonSpecs : List CommonSpecItem) : List BuyerISQItem :=
  ((sortByScoreDesc commonSpecs).take 2).map (fun spec =>
    { spec_name := spec.spec_name,
      options := deduplicateOptions spec.options,
      category := spec.category })

/-- The fallback table of getSmartFallbacks in api.ts, in insertion
order. -/
def fallbacksTable : List (Str × List Str) := [
  (str ("material"),
   [str ("SS 304"), str ("SS 316"), str ("Mild Steel"), str ("Galvanized Iron"),
    str ("Aluminium"), str ("Copper"), str ("Brass"), str ("PVC"), str ("Carbon Steel")]),
  (str ("grade"),
   [str ("304"), str ("316"), str ("430"), str ("201"), str ("202"), str ("304L"),
    str ("316L"), str ("Grade A"), str ("Grade B"), str ("Commercial"), str ("Industrial")]),
  (str ("thickness"),
   [str ("1mm"), str ("2mm"), str ("3mm"), str ("5mm"), str ("10mm"), str ("15mm"),
    str ("20mm"), str ("25mm"), str ("0.5mm"), str ("1.5mm"), str ("4mm"), str ("6mm"),
    str ("8mm")]),
  (str ("diameter"),
   [str ("15mm"), str ("20mm"), str ("25mm"), str ("32mm"), str ("40mm"), str ("50mm"),
    str ("1/2\""), str ("3/4\""), str ("1\""), str ("2\""), str ("3\""), str ("4\"")]),
  (str ("size"),
   [str ("Small"), str ("Medium"), str ("Large"), str ("Extra Large"),
    str ("Sheet"), str ("Plate"), str ("Coil"), str ("Pipe"), str ("Rod")]),
  (str ("length"),
   [str ("6m"), str ("12m"), str ("Random"), str ("Custom"),
    str ("3ft"), str ("6ft"), str ("10ft"), str ("20ft"), str ("1m"), str ("2m")]),
  (str ("width"),
   [str ("1000mm"), str ("1250mm"), str ("1500mm"), str ("2000mm"),
    str ("3ft"), str ("4ft"), str ("5ft"), str ("6ft")]),
  (str ("height"),
   [str ("1000mm"), str ("1500mm"), str ("2000mm"), str ("2500mm"),
    str ("3ft"), str ("4ft"), str ("5ft"), str ("6ft")]),
  (str ("color"),
   [str ("White"), str ("Black"), str ("Blue"), str ("Red"), str ("Green"),
    str ("Yellow"), str ("Gray"), str ("Silver"), str ("Gold"), str ("Brown")]),
  (str ("finish"),
   [str ("Mill Finish"), str ("Polished"), str ("Galvanized"), str ("Brushed"),
    str ("Coated"), str ("Painted"), str ("Anodized"), str ("Matt")]),
  (str ("type"),
   [str ("Standard"), str ("Premium"), str ("Economy"), str ("Commercial"),
    str ("Industrial"), str ("Heavy Duty"), str ("Light Duty"), str ("Custom")]),
  (str ("shape"),
   [str ("Round"), str ("Square"), str ("Rectangular"), str ("Hexagonal"),
    str ("Flat"), str ("Angle"), str ("Channel"), str ("Pipe")]),
  (str ("weight"),
   [str ("1kg"), str ("5kg"), str ("10kg"), str ("25kg"), str ("50kg"), str ("100kg"),
    str ("500kg"), str ("1000kg")]),
  (str ("capacity"),
   [str ("10L"), str ("20L"), str ("50L"), str ("100L"), str ("200L"), str ("500L"),
    str ("1000L"), str ("2000L")]),
  (str ("brand"),
   [str ("Tata"), str ("Jindal"), str ("SAIL"), str ("Essar"), str ("Hindalco"),
    str ("Godrej"), str ("Asian Paints"), str ("Berger")]),
  (str ("quality"),
   [str ("Grade A"), str ("Grade B"), str ("Commercial"), str ("Industrial"),
    str ("Premium"), str ("Standard"), str ("Economy"), str ("Export Quality")])]

/-- The default fallback list of getSmartFallbacks. -/
def defaultFallbacks : List Str :=
  [str ("Standard"), str ("Premium"), str ("Economy"), str ("Commercial"),
   str ("Industrial"), str ("Custom"), str ("Type A"), str ("Type B"),
   str ("Small"), str ("Medium"), str ("Large"), str ("Extra Large")]

/-- getSmartFallbacks from api.ts: the first table entry whose key is a
substring of the normalized name, else the default list. -/
def getSmartFallbacks (normName : Str) : List Str :=
  match fallbacksTable.find? (fun kv => includes normName kv.1) with
  | some kv => kv.2
  | none => defaultFallbacks

/-- A spec with its precomputed normalized name, as flattened by
selectStage3BuyerISQs in api.ts. -/
structure SpecWithNorm where
  name : Str
  options : List Str
  normName : Str
deriving DecidableEq, Repr

/-- The option-list lookup of getBuyerISQOptions: options of the first
spec with a given normalized name, or empty. -/
def lookupOptions (normName : Str) (all : List SpecWithNorm) : List Str :=
  ((all.find? (fun s => decide (s.normName = normName))).map
    (fun s => s.options)).getD []

/-- State of the getBuyerISQOptions accumulation: the result array and
the seen set of lower-cased emitted values. -/
structure BState where
  result : List Str
  seen : List Str
deriving DecidableEq, Repr

/-- Step one of getBuyerISQOptions: source options that occur (by
trimmed-lower-cased equality) among the target options.  The length
test at the head of each iteration models the break at eight. -/
def step1 (stage2Options : List Str) : List Str → BState → BState
  | [], st => st
  | s1Opt :: rest, st =>
    if st.result.length ≥ 8 then st
    else
      let cleanS1 := cleanOpt s1Opt
      let st1 :=
        if stage2Options.any (fun s2Opt => decide (cleanOpt s2Opt = cleanS1)) then
          let originalOpt := trim s1Opt
          let lowerOpt := lower originalOpt
          if lowerOpt ∈ st.seen then st
          else { result := st.result ++ [originalOpt], seen := lowerOpt :: st.seen }
        else st
      step1 stage2Options rest st1

/-- Step two of getBuyerISQOptions: remaining source options. -/
def step2 : List Str → BState → BState
  | [], st => st
  | s1Opt :: rest, st =>
    if st.result.length ≥ 8 then st
    else
      let cleanO := trim s1Opt
      let lowerOpt := lower cleanO
      let st1 :=
        if lowerOpt ∈ st.seen then st
        else { result := st.result ++ [cleanO], seen := lowerOpt :: st.seen }
      step2 rest st1

/-- Step three of getBuyerISQOptions: fallback options until eight. -/
def step3 : List Str → BState → BState
  | [], st => st
  | fb :: rest, st =>
    if st.result.length ≥ 8 then st
    else
      let lowerFb := lower fb
      let st1 :=
        if lowerFb ∈ st.seen then st
        else { result := st.result ++ [fb], seen := lowerFb :: st.seen }
      step3 rest st1

/-- getBuyerISQOptions from api.ts: common options first, then remaining
source options, then static fallbacks, stopping at eight. -/
def getBuyerISQOptions
    (normName : Str) (stage1All stage2All : List SpecWithNorm) : List Str :=
  let stage1Options := lookupOptions normName stage1All
  let stage2Options := lookupOptions normName stage2All
  let st1 := step1 stage2Options stage1Options ⟨[], []⟩
  let st2 := if st1.result.length < 8 then step2 stage1Options st1 else st1
  let st3 := if st2.result.length < 8 then step3 (getSmartFallbacks normName) st2 else st2
  st3.result

/-- The connector alternatives of the range test regex in
checkRangeMatch (case-insensitive). -/
def connectorPatterns : List Str :=
  [str ("to"), str ("-"), str ("~"), str ("up to"), str ("upto"), str ("from")]

/-- The range detector of checkRangeMatch: some connector occurs in the
string (the regex is case-insensitive, so the string is lowered). -/
def rangeConnectorTest (s : Str) : Bool :=
  connectorPatterns.any (fun p => includes (lower s) p)

/-- The unit vocabulary of unitsCompatible in checkRangeMatch, in scan
order. -/
def unitNames : List Str :=
  [str ("mm"), str ("cm"), str ("m"), str ("inch"), str ("ft"),
   str ("meter"), str ("millimeter"), str ("centimeter")]

/-- getUnit of unitsCompatible: the first listed unit occurring as a
substring, if any. -/
def getUnit (s : Str) : Option Str :=
  unitNames.find? (fun u => includes s u)

/-- The compatibleUnits table of unitsCompatible. -/
def compatibleUnits : List (Str × List Str) := [
  (str ("mm"), [str ("millimeter")]),
  (str ("millimeter"), [str ("mm")]),
  (str ("cm"), [str ("centimeter")]),
  (str ("centimeter"), [str ("cm")]),
  (str ("m"), [str ("meter")]),
  (str ("meter"), [str ("m")]),
  (str ("inch"), [str ("\"")]),
  (str ("\""), [str ("inch")]),
  (str ("ft"), [str ("feet")]),
  (str ("feet"), [str ("ft")])]

/-- Table lookup in compatibleUnits; a missing key gives the empty
list (the JS truthiness guard). -/
def compatLookup (u : Str) : List Str :=
  ((compatibleUnits.find? (fun kv => decide (kv.1 = u))).map
    (fun kv => kv.2)).getD []

/-- unitsCompatible from checkRangeMatch in api.ts: both sides without a
recognized unit are compatible, exactly one recognized unit is
incompatible, and two recognized units must be equal or listed as
equivalent. -/
def unitsCompatible (s1 s2 : Str) : Bool :=
  match getUnit s1, getUnit s2 with
  | none, none => true
  | none, some _ => false
  | some _, none => false
  | some u1, some u2 =>
    decide (u1 = u2) || decide (u2 ∈ compatLookup u1) ||
    decide (u1 ∈ compatLookup u2)

/-- checkRangeMatch from api.ts: if a side with at least two numbers
tests as a range, any number of the other side falling inclusively
between the smaller and larger of its first two numbers (with
compatible units) is a match. -/
def checkRangeMatch (str1 str2 : Str) : Bool :=
  let nums1 := extractAllNumbers str1
  let nums2 := extractAllNumbers str2
  if nums1 = [] || nums2 = [] then false
  else
    let isRange1 := rangeConnectorTest str1
    let isRange2 := rangeConnectorTest str2
    let try1 :=
      match nums1 with
      | a :: b :: _ =>
        isRange1 && nums2.any (fun v =>
          decide (min a b ≤ v) && decide (v ≤ max a b) && unitsCompatible str1 str2)
      | _ => false
    let try2 :=
      match nums2 with
      | a :: b :: _ =>
        isRange2 && nums1.any (fun v =>
          decide (min a b ≤ v) && decide (v ≤ max a b) && unitsCompatible str1 str2)
      | _ => false
    try1 || try2

/-- A Stage 1 spec as flattened by extractCommonAndBuyerSpecs, with its
precomputed normalized name. -/
structure Stage1Spec where
  spec_name : Str
  options : List Str
  input_type : Str
  tier : Str
  normName : Str
deriving DecidableEq, Repr

/-- The flattening step of extractCommonAndBuyerSpecs for one spec. -/
def mkStage1Spec (name : Str) (options : List Str) (ty : Str) (tier : Str) :
    Stage1Spec :=
  { spec_name := name, options := options, input_type := ty, tier := tier,
    normName := normalizeSpecName name }

/-- A Stage 2 ISQ record: a name with an option list. -/
structure ISQ where
  name : Str
  options : List Str
deriving DecidableEq, Repr

/-- State of the matching loop of extractCommonAndBuyerSpecs.  The field
log is a ghost record of the matched pairs, with the consumed Stage 2
index, kept so the pairing invariants can be stated. -/
structure RState where
  commonSpecs : List CommonSpecItem
  matched2 : List Nat
  log : List (Stage1Spec × Nat × ISQ)
deriving DecidableEq, Repr

/-- The inner scan of extractCommonAndBuyerSpecs: the first Stage 2 spec
not yet consumed whose name matches. -/
def findFirstMatch (stage2ISQs : List ISQ) (matched2 : List Nat) (name1 : Str) :
    Option (Nat × ISQ) :=
  stage2ISQs.enum.find? (fun p =>
    !(decide (p.1 ∈ matched2)) && isSemanticallySimilar name1 p.2.name)

/-- The common spec emitted for one matched pair: Stage 1 name and tier,
common options of the pair. -/
def mkCommonSpec (s1 : Stage1Spec) (s2 : ISQ) : CommonSpecItem :=
  { spec_name := s1.spec_name,
    options := findCommonOptionsWithRangeMatching s1.options s2.options s1.normName,
    input_type := s1.input_type,
    category := s1.tier }

/-- The matching loop of extractCommonAndBuyerSpecs: first match wins,
each Stage 2 index consumed at most once, and a common spec is emitted
for every matched pair regardless of its option overlap. -/
def reconcileLoop (stage2ISQs : List ISQ) : List Stage1Spec → RState → RState
  | [], st => st
  | s1 :: rest, st =>
    let st1 :=
      match findFirstMatch stage2ISQs st.matched2 s1.spec_name with
      | some (j, s2) =>
        { commonSpecs := st.commonSpecs ++ [mkCommonSpec s1 s2],
          matched2 := j :: st.matched2,
          log := st.log ++ [(s1, j, s2)] }
      | none => st
    reconcileLoop stage2ISQs rest st1

/-- The duplicate-name filter of extractCommonAndBuyerSpecs: keep the
first common spec for each name. -/
def dedupByNameAux (seen : List Str) : List CommonSpecItem → List CommonSpecItem
  | [] => []
  | c :: rest =>
    if c.spec_name ∈ seen then dedupByNameAux seen rest
    else c :: dedupByNameAux (c.spec_name :: seen) rest

/-- Run the matching loop of extractCommonAndBuyerSpecs from the empty
state. -/
def runReconcile (stage1AllSpecs : List Stage1Spec) (stage2ISQs : List ISQ) :
    RState :=
  reconcileLoop stage2ISQs stage1AllSpecs ⟨[], [], []⟩

/-- The common-specs output of extractCommonAndBuyerSpecs: the matched
pairs in Stage 1 order, de-duplicated by exact name. -/
def extractCommonSpecs (stage1AllSpecs : List Stage1Spec) (stage2ISQs : List ISQ) :
    List CommonSpecItem :=
  dedupByNameAux [] (runReconcile stage1AllSpecs stage2ISQs).commonSpecs

/-- The facts maintained by every pass of the common-options scan: each
emitted value is registered in the added set, the emitted values are
pairwise distinct after cleaning, the consumed log is duplicate-free,
and the used set holds exactly the logged indices. -/
def CInv (st : CState) : Prop :=
  (∀ x ∈ st.common, cleanOpt x ∈ st.added) ∧
  (st.common.map cleanOpt).Nodup ∧
  st.consumed.Nodup ∧
  (∀ j : Nat, j ∈ st.used ↔ j ∈ st.consumed)

/-- The facts maintained by the matching loop of
extractCommonAndBuyerSpecs: the logged Stage 2 indices are
duplicate-free and agree with the matched set, and the emitted common
specs are exactly the images of the logged pairs. -/
def RInv (st : RState) : Prop :=
  (st.log.map (fun e => e.2.1)).Nodup ∧
  (∀ j : Nat, j ∈ st.matched2 ↔ j ∈ st.log.map (fun e => e.2.1)) ∧
  st.commonSpecs = st.log.map (fun e => mkCommonSpec e.1 e.2.2)

/-- The facts maintained by the three steps of getBuyerISQOptions: at
most eight results, the seen set lists exactly the lower-casings of the
results, and every result is a trimmed source option or one of the
fallback options. -/
def BInv (opts fbs : List Str) (st : BState) : Prop :=
  st.result.length ≤ 8 ∧
  st.seen.length = st.result.length ∧
  (∀ x, x ∈ st.seen ↔ x ∈ st.result.map lower) ∧
  (∀ x ∈ st.result, (∃ o ∈ opts, x = trim o) ∨ x ∈ fbs)

/-! ### Character-level facts about the ASCII lower-casing -/

theorem char_ofNat_toNat (n : Nat) (h : n < 55296) : (Char.ofNat n).toNat = n := by
  simp [Char.ofNat, Nat.isValidChar, Char.toNat, h, Char.ofNatAux,
    UInt32.ofNatCore, UInt32.toNat]

theorem toNat_toLower (c : Char) :
    (Char.toLower c).toNat =
      if c.toNat ≥ 65 ∧ c.toNat ≤ 90 then c.toNat + 32 else c.toNat := by
  show ((if c.toNat ≥ 65 ∧ c.toNat ≤ 90 then Char.ofNat (c.toNat + 32) else c)).toNat = _
  split_ifs with h
  · exact char_ofNat_toNat _ (by omega)
  · rfl

theorem toLower_eq_self_of_not_upper (c : Char)
    (h : ¬ (c.toNat ≥ 65 ∧ c.toNat ≤ 90)) : Char.toLower c = c := by
  show (if c.toNat ≥ 65 ∧ c.toNat ≤ 90 then Char.ofNat (c.toNat + 32) else c) = c
  rw [if_neg h]

theorem toLower_toLower (c : Char) :
    Char.toLower (Char.toLower c) = Char.toLower c := by
  apply toLower_eq_self_of_not_upper
  rw [toNat_toLower]
  split_ifs with h <;> omega

theorem isWs_toLower (c : Char) : isWs (Char.toLower c) = isWs c := by
  unfold isWs
  rw [toNat_toLower, Bool.eq_iff_iff]
  simp only [Bool.or_eq_true, decide_eq_true_eq]
  split_ifs with h <;> omega

theorem isPunctRepl_toLower (c : Char) :
    isPunctRepl (Char.toLower c) = isPunctRepl c := by
  unfold isPunctRepl
  rw [toNat_toLower, Bool.eq_iff_iff]
  simp only [Bool.or_eq_true, decide_eq_true_eq]
  split_ifs with h <;> omega

/-! ### Small list facts used throughout -/

theorem dropWhile_eq_self_of_all (p : Char → Bool) (s : Str)
    (h : ∀ c ∈ s, p c = false) : s.dropWhile p = s := by
  cases s with
  | nil => rfl
  | cons a l => simp [List.dropWhile_cons, h a (by simp)]

theorem trim_eq_self (s : Str) (h : ∀ c ∈ s, isWs c = false) : trim s = s := by
  have h2 : ∀ c ∈ ((s.dropWhile isWs).reverse : Str), isWs c = false := by
    rw [dropWhile_eq_self_of_all _ _ h]
    exact fun c hc => h c (List.mem_reverse.mp hc)
  unfold trim
  rw [dropWhile_eq_self_of_all _ _ h2, dropWhile_eq_self_of_all _ _ h,
    List.reverse_reverse]

theorem lower_eq_self (s : Str) (h : ∀ c ∈ s, Char.toLower c = c) :
    lower s = s := by
  unfold lower
  induction s with
  | nil => rfl
  | cons a l ih =>
    simp only [List.map_cons, h a (by simp)]
    rw [ih (fun c hc => h c (by simp [hc]))]

theorem replacePunct_eq_self (s : Str) (h : ∀ c ∈ s, isPunctRepl c = false) :
    replacePunct s = s := by
  unfold replacePunct
  induction s with
  | nil => rfl
  | cons a l ih =>
    simp only [List.map_cons, h a (by simp), if_false, Bool.false_eq_true]
    rw [ih (fun c hc => h c (by simp [hc]))]

theorem tokensAux_no_ws (w : Str) (hw : ∀ c ∈ w, isWs c = false) :
    ∀ acc, tokensAux w acc = tokensAux [] (w.reverse ++ acc) := by
  induction w with
  | nil => intro acc; rfl
  | cons c s ih =>
    intro acc
    have hc : isWs c = false := hw c (by simp)
    show (if isWs c then _ else tokensAux s (c :: acc)) = _
    rw [hc]
    simp only [Bool.false_eq_true, if_false]
    rw [ih (fun d hd => hw d (by simp [hd])) (c :: acc)]
    simp

theorem tokens_single (w : Str) (hne : w ≠ []) (hw : ∀ c ∈ w, isWs c = false) :
    tokens w = [w] := by
  unfold tokens
  rw [tokensAux_no_ws w hw [], List.append_nil]
  show (if w.reverse = [] then [] else [w.reverse.reverse]) = [w]
  rw [if_neg (by simpa using hne), List.reverse_reverse]

theorem dedupFirst_single {α : Type} [DecidableEq α] (a : α) :
    dedupFirst [a] = [a] := by
  simp [dedupFirst, dedupFirstAux]

/-! ### Claim C5: commutativity of the Name Matcher -/

theorem groupAny_comm (gs : List (List Str)) (n1 n2 : Str) :
    gs.any (fun g => g.any (fun w => includes n1 w) && g.any (fun w => includes n2 w)) =
    gs.any (fun g => g.any (fun w => includes n2 w) && g.any (fun w => includes n1 w)) := by
  induction gs with
  | nil => rfl
  | cons g rest ih => simp only [List.any_cons, ih, Bool.and_comm]

/-- Claim C5: for all name strings a and b, the Name Matcher is
commutative — isSemanticallySimilar a b equals isSemanticallySimilar
b a.  Every rule of the matcher (normalized equality, mutual substring
containment, shared synonym group) is symmetric in its two inputs. -/
theorem namesMatch_comm (a b : Str) :
    isSemanticallySimilar a b = isSemanticallySimilar b a := by
  simp only [isSemanticallySimilar]
  by_cases h : normalizeSpecName a = normalizeSpecName b
  · rw [if_pos h, if_pos h.symm]
  · have h' : ¬ normalizeSpecName b = normalizeSpecName a := fun hh => h hh.symm
    rw [if_neg h, if_neg h']
    by_cases h2 : (includes (normalizeSpecName a) (normalizeSpecName b) ||
        includes (normalizeSpecName b) (normalizeSpecName a)) = true
    · have h2' : (includes (normalizeSpecName b) (normalizeSpecName a) ||
          includes (normalizeSpecName a) (normalizeSpecName b)) = true := by
        rw [Bool.or_comm]; exact h2
      rw [if_pos h2, if_pos h2']
    · have h2' : ¬ (includes (normalizeSpecName b) (normalizeSpecName a) ||
          includes (normalizeSpecName a) (normalizeSpecName b)) = true := by
        rw [Bool.or_comm]; exact h2
      rw [if_neg h2, if_neg h2']
      exact groupAny_comm _ _ _

/-! ### Claim C2: behaviour of the Name Matcher on empty normalizations -/

/-- Claim C2, counterexample: normalizing the name sheet gives the empty
string, yet the matcher answers true against the unrelated name grade —
the claim asserts it must answer false whenever the left normalization
is empty. -/
theorem namesMatch_empty_normalization_cex :
    normalizeSpecName (str ("sheet")) = [] ∧
    isSemanticallySimilar (str ("sheet")) (str ("grade")) = true := by
  constructor <;> decide

/-- Claim C2, amended: whenever normalize(a) is empty, namesMatch(a, b)
returns true for every b, because the empty string is a substring of
every string and the substring rule of the matcher does not require
non-emptiness. -/
theorem namesMatch_true_of_empty_normalization (a b : Str)
    (h : normalizeSpecName a = []) : isSemanticallySimilar a b = true := by
  simp only [isSemanticallySimilar, h]
  by_cases h2 : ([] : Str) = normalizeSpecName b
  · rw [if_pos h2]
  · rw [if_neg h2]
    have hin : includes (normalizeSpecName b) [] = true := by
      simp [includes]
    rw [hin]
    simp

theorem namesMatch_true_of_empty_normalization_witness :
    isSemanticallySimilar (str ("sheet")) (str ("grade")) = true :=
  namesMatch_true_of_empty_normalization (str ("sheet")) (str ("grade")) (by decide)

/-! ### Claim C9: the Name Normalizer does not singularize -/

/-- Claim C9, counterexample: the normalizer contains no singularization
step, so the names valves and valve normalize to distinct strings. -/
theorem normalize_no_singularization_cex :
    ¬ normalizeSpecName (str ("valves")) = normalizeSpecName (str ("valve")) := by
  decide

theorem standardizeWord_eq_self (w : Str)
    (hcw : w ≠ str ("constructor"))
    (hkey : standardizations.find? (fun kv => decide (kv.1 = w)) = none)
    (hsub : standardizations.find?
      (fun kv => includes w kv.1 || includes kv.1 w) = none) :
    standardizeWord w = w := by
  unfold standardizeWord
  rw [hkey, if_neg hcw, hsub]

/-- Claim C9, amended: the normalizer performs no singularization at
all.  A non-empty single token without whitespace, replaced punctuation
or upper-case letters, that is not the inherited property name
constructor, is neither a dictionary key nor in a substring relation
with any dictionary key, and is not a filler word, is returned verbatim
by normalizeSpecName — its trailing s included; in particular valves
and valve are fixed points and normalize to different strings. -/
theorem normalize_keeps_untouched_token (w : Str)
    (hne : w ≠ [])
    (hcw : w ≠ str ("constructor"))
    (hchars : ∀ c ∈ w, isWs c = false ∧ isPunctRepl c = false ∧ Char.toLower c = c)
    (hkey : standardizations.find? (fun kv => decide (kv.1 = w)) = none)
    (hsub : standardizations.find?
      (fun kv => includes w kv.1 || includes kv.1 w) = none)
    (hfill : w ∉ fillerWords) :
    normalizeSpecName w = w := by
  simp only [normalizeSpecName]
  rw [lower_eq_self w (fun c hc => (hchars c hc).2.2),
      trim_eq_self w (fun c hc => (hchars c hc).1),
      replacePunct_eq_self w (fun c hc => (hchars c hc).2.1),
      tokens_single w hne (fun c hc => (hchars c hc).1),
      List.map_singleton, standardizeWord_eq_self w hcw hkey hsub,
      dedupFirst_single]
  rw [List.filter_singleton]
  rw [decide_eq_true hfill]
  show trim (joinSpaces [w]) = w
  show trim w = w
  exact trim_eq_self w (fun c hc => (hchars c hc).1)

theorem normalize_keeps_untouched_token_witness :
    normalizeSpecName (str ("valves")) = str ("valves") :=
  normalize_keeps_untouched_token (str ("valves")) (by decide) (by decide)
    (by decide) (by decide) (by decide) (by decide)

/-! ### Claim C8: range-versus-single-value matching in checkRangeMatch -/

/-- Claim C8, counterexample: the string 1mm to 5mm is a numeric range,
the string 3 is a single numeric value with no stated unit, and 3 lies
inside the inclusive interval from 1 to 5, so the claim demands a
match; checkRangeMatch answers false because its unit test treats a
unit on exactly one side as incompatible. -/
theorem checkRangeMatch_one_sided_unit_cex :
    rangeConnectorTest (str ("1mm to 5mm")) = true ∧
    rangeConnectorTest (str ("3")) = false ∧
    extractAllNumbers (str ("1mm to 5mm")) = [1, 5] ∧
    extractAllNumbers (str ("3")) = [3] ∧
    ((1 : ℚ) ≤ 3 ∧ (3 : ℚ) ≤ 5) ∧
    checkRangeMatch (str ("1mm to 5mm")) (str ("3")) = false := by
  refine ⟨by decide, by decide, by decide, by decide, by norm_num, by decide⟩

/-- Claim C8, amended: optionsMatch on the example pair 0.1mm to 6.0mm
versus 2mm returns true; in general, when exactly one of the two
strings tests as a numeric range (with at least two numbers) and the
other carries a single numeric value, the match holds if and only if
the single value lies within the inclusive interval spanned by the
first two numbers of the range and the units are compatible, where
compatible means both sides carry no recognized unit, or both carry
recognized units that are equal or listed as equivalent — a pair where
exactly one side carries a recognized unit never matches. -/
theorem checkRangeMatch_range_vs_single (s1 s2 : Str) (a b v : ℚ) (rest : List ℚ)
    (h1 : rangeConnectorTest s1 = true)
    (_h2 : rangeConnectorTest s2 = false)
    (hn1 : extractAllNumbers s1 = a :: b :: rest)
    (hn2 : extractAllNumbers s2 = [v]) :
    checkRangeMatch s1 s2 =
      (decide (min a b ≤ v) && decide (v ≤ max a b) && unitsCompatible s1 s2) := by
  simp only [checkRangeMatch, hn1, hn2, h1]
  simp

theorem checkRangeMatch_range_vs_single_witness :
    checkRangeMatch (str ("0.1mm to 6.0mm")) (str ("2mm")) = true := by
  have h := checkRangeMatch_range_vs_single (str ("0.1mm to 6.0mm")) (str ("2mm"))
    (mkRat 1 10) 6 2 [] (by decide) (by decide) (by decide) (by decide)
  rw [h]
  decide

/-! ### Claim C1: size and option caps of the Buyer-ISQ Selector -/

theorem insertByScoreDesc_length (x : CommonSpecItem) (l : List CommonSpecItem) :
    (insertByScoreDesc x l).length = l.length + 1 := by
  induction l with
  | nil => rfl
  | cons y rest ih =>
    simp only [insertByScoreDesc]
    split_ifs <;> simp [ih]

theorem sortByScoreDesc_length (l : List CommonSpecItem) :
    (sortByScoreDesc l).length = l.length := by
  induction l with
  | nil => rfl
  | cons x rest ih => simp [sortByScoreDesc, insertByScoreDesc_length, ih]

theorem lower_trim (s : Str) : lower (trim s) = trim (lower s) := by
  have hcomp : (isWs ∘ Char.toLower) = isWs := funext isWs_toLower
  simp only [lower, trim, List.dropWhile_map, hcomp, ← List.map_reverse]

theorem cleanOpt_eq_of_lower_eq {x y : Str} (h : lower x = lower y) :
    cleanOpt x = cleanOpt y := by
  unfold cleanOpt
  rw [lower_trim, lower_trim, h]

theorem nodup_lower_of_nodup_cleanOpt (l : List Str)
    (h : (l.map cleanOpt).Nodup) : (l.map lower).Nodup := by
  simp only [List.Nodup, List.pairwise_map] at h ⊢
  exact h.imp (fun hne hlow => hne (cleanOpt_eq_of_lower_eq hlow))

theorem dedupOptsAux_spec (l : List Str) : ∀ seen : List Str,
    ((dedupOptsAux seen l).map cleanOpt).Nodup ∧
    ∀ x ∈ dedupOptsAux seen l, cleanOpt x ∉ seen := by
  induction l with
  | nil => intro seen; exact ⟨List.nodup_nil, by simp [dedupOptsAux]⟩
  | cons opt rest ih =>
    intro seen
    simp only [dedupOptsAux]
    split_ifs with hmem
    · exact ih seen
    · obtain ⟨ihn, ihs⟩ := ih (cleanOpt opt :: seen)
      refine ⟨?_, ?_⟩
      · simp only [List.map_cons, List.nodup_cons]
        refine ⟨fun hc => ?_, ihn⟩
        obtain ⟨y, hy, hcy⟩ := List.mem_map.mp hc
        exact (ihs y hy) (by simp [hcy])
      · intro x hx
        rcases List.mem_cons.mp hx with h | h
        · subst h; exact hmem
        · intro hxs
          exact (ihs x h) (by simp [hxs])

/-- Claim C1: selectBuyerISQs returns exactly min(2, number of common
specs) buyer ISQs, and every returned ISQ carries at most eight
options, pairwise distinct case-insensitively. -/
theorem selectBuyerISQs_count_and_option_caps (commonSpecs : List CommonSpecItem) :
    (selectBuyerISQs commonSpecs).length = min 2 commonSpecs.length ∧
    ∀ isq ∈ selectBuyerISQs commonSpecs,
      isq.options.length ≤ 8 ∧ (isq.options.map lower).Nodup := by
  constructor
  · simp [selectBuyerISQs, sortByScoreDesc_length]
  · intro isq hisq
    simp only [selectBuyerISQs, List.mem_map] at hisq
    obtain ⟨spec, hspec, rfl⟩ := hisq
    refine ⟨?_, ?_⟩
    · exact List.length_take_le 8 _
    · apply nodup_lower_of_nodup_cleanOpt
      have hn := (dedupOptsAux_spec spec.options []).1
      have hsub : List.Sublist ((deduplicateOptions spec.options).map cleanOpt)
          ((dedupOptsAux [] spec.options).map cleanOpt) :=
        (List.take_sublist _ _).map _
      exact List.Nodup.sublist hsub hn

/-! ### State invariants of the common-options passes (claims C4, C6) -/

theorem cinv_push (st : CState) (x : Str) (j : Nat)
    (hx : cleanOpt x ∉ st.added) (hj : j ∉ st.used) (h : CInv st) :
    CInv ⟨st.common ++ [x], j :: st.used, cleanOpt x :: st.added,
          st.consumed ++ [j]⟩ := by
  obtain ⟨h1, h2, h3, h4⟩ := h
  refine ⟨?_, ?_, ?_, ?_⟩
  · intro y hy
    rcases List.mem_append.mp hy with hm | hm
    · exact List.mem_cons_of_mem _ (h1 y hm)
    · rw [List.mem_singleton] at hm
      subst hm
      exact List.mem_cons_self _ _
  · rw [List.map_append, List.map_singleton, List.nodup_append]
    refine ⟨h2, List.nodup_singleton _, ?_⟩
    intro y hy hmem1
    rw [List.mem_singleton] at hmem1
    subst hmem1
    obtain ⟨z, hz, hcz⟩ := List.mem_map.mp hy
    exact hx (hcz ▸ h1 z hz)
  · rw [List.nodup_append]
    refine ⟨h3, List.nodup_singleton _, ?_⟩
    intro a ha hb
    rw [List.mem_singleton] at hb
    subst hb
    exact hj ((h4 a).mpr ha)
  · intro k
    simp only [List.mem_cons, List.mem_append, List.mem_singleton, h4 k]
    tauto

theorem find_enum_not_used {α : Type} {l : List (Nat × α)} {used : List Nat}
    {q : Nat × α → Bool} {p : Nat × α}
    (h : l.find? (fun r => !(decide (r.1 ∈ used)) && q r) = some p) :
    p.1 ∉ used := by
  have hp := List.find?_some h
  simp only [Bool.and_eq_true, Bool.not_eq_true', decide_eq_false_iff_not] at hp
  exact hp.1

theorem findExactIdx_not_used {options2 : List Str} {used : List Nat}
    {c1 : Str} {j : Nat} (h : findExactIdx options2 used c1 = some j) :
    j ∉ used := by
  unfold findExactIdx at h
  obtain ⟨p, hp, hj⟩ := Option.map_eq_some'.mp h
  subst hj
  exact find_enum_not_used hp

theorem findRangeIdx_not_used {options2 : List Str} {used : List Nat}
    {v : ℚ} {j : Nat} (h : findRangeIdx options2 used v = some j) :
    j ∉ used := by
  unfold findRangeIdx at h
  obtain ⟨p, hp, hj⟩ := Option.map_eq_some'.mp h
  subst hj
  exact find_enum_not_used hp

theorem pass1_cinv (options2 : List Str) (l : List Str) :
    ∀ st, CInv st → CInv (pass1 options2 l st) := by
  induction l with
  | nil => intro st h; exact h
  | cons o1 rest ih =>
    intro st h
    simp only [pass1]
    cases hf : findExactIdx options2 st.used (cleanOpt o1) with
    | none => simp only [hf]; exact ih st h
    | some j =>
      simp only [hf]
      split_ifs with hadd
      · exact ih st h
      · exact ih _ (cinv_push st o1 j hadd (findExactIdx_not_used hf) h)

theorem pass2fwd_cinv (options2 : List Str) (l : List Str) :
    ∀ st, CInv st → CInv (pass2fwd options2 l st) := by
  induction l with
  | nil => intro st h; exact h
  | cons o1 rest ih =>
    intro st h
    simp only [pass2fwd]
    by_cases hadd : cleanOpt o1 ∈ st.added
    · rw [if_pos hadd]; exact ih st h
    · rw [if_neg hadd]
      cases hv : extractValue o1 with
      | none => simp only [hv]; exact ih st h
      | some v =>
        simp only [hv]
        cases hf : findRangeIdx options2 st.used v with
        | none => simp only [hf]; exact ih st h
        | some j =>
          simp only [hf]
          rw [if_neg hadd]
          exact ih _ (cinv_push st o1 j hadd (findRangeIdx_not_used hf) h)

theorem pass2rev_cinv (options1 : List Str) (l : List (Nat × Str)) :
    ∀ st, CInv st → CInv (pass2rev options1 l st) := by
  induction l with
  | nil => intro st h; exact h
  | cons p rest ih =>
    intro st h
    obtain ⟨j, o2⟩ := p
    simp only [pass2rev]
    by_cases hused : j ∈ st.used
    · rw [if_pos hused]; exact ih st h
    · rw [if_neg hused]
      cases hv : extractValue o2 with
      | none => simp only [hv]; exact ih st h
      | some v =>
        simp only [hv]
        by_cases hany : (options1.any fun o1 => isValueInRange v o1) = true
        · rw [if_pos hany]
          by_cases hadd : cleanOpt o2 ∈ st.added
          · rw [if_pos hadd]; exact ih st h
          · rw [if_neg hadd]
            exact ih _ (cinv_push st o2 j hadd hused h)
        · rw [if_neg hany]; exact ih st h

theorem pass3inner_added_stable (o1 c1 : Str) (l : List (Nat × Str)) :
    ∀ st, c1 ∈ st.added → pass3inner o1 c1 l st = st := by
  induction l with
  | nil => intro st _; rfl
  | cons p rest ih =>
    intro st hc
    obtain ⟨j, o2⟩ := p
    simp only [pass3inner]
    by_cases h1 : j ∈ st.used
    · rw [if_pos h1]; exact ih st hc
    · rw [if_neg h1, if_pos hc]; exact ih st hc

theorem pass3inner_cases (o1 c1 : Str) (l : List (Nat × Str)) :
    ∀ st, pass3inner o1 c1 l st = st ∨
      ∃ j, j ∉ st.used ∧ c1 ∉ st.added ∧
        pass3inner o1 c1 l st =
          ⟨st.common ++ [o1], j :: st.used, c1 :: st.added,
           st.consumed ++ [j]⟩ := by
  induction l with
  | nil => intro st; exact Or.inl rfl
  | cons p rest ih =>
    intro st
    obtain ⟨j, o2⟩ := p
    simp only [pass3inner]
    by_cases h1 : j ∈ st.used
    · rw [if_pos h1]; exact ih st
    · rw [if_neg h1]
      by_cases h2 : c1 ∈ st.added
      · rw [if_pos h2]; exact ih st
      · rw [if_neg h2]
        by_cases h3 : (areOptionsSimilar o1 o2 && !(decide (c1 ∈ st.added))) = true
        · rw [if_pos h3]
          right
          refine ⟨j, h1, h2, ?_⟩
          exact pass3inner_added_stable o1 c1 rest _ (List.mem_cons_self _ _)
        · rw [if_neg h3]; exact ih st

theorem pass3_cinv (options2 : List Str) (l : List Str) :
    ∀ st, CInv st → CInv (pass3 options2 l st) := by
  induction l with
  | nil => intro st h; exact h
  | cons o1 rest ih =>
    intro st h
    simp only [pass3]
    split_ifs with hadd
    · exact ih st h
    · rcases pass3inner_cases o1 (cleanOpt o1) options2.enum st with heq | ⟨j, hju, hca, heq⟩
      · rw [heq]; exact ih st h
      · rw [heq]; exact ih _ (cinv_push st o1 j hca hju h)

theorem runCommonState_cinv (options1 options2 : List Str) (normName : Str) :
    CInv (runCommonState options1 options2 normName) := by
  have h0 : CInv ⟨[], [], [], []⟩ := by
    refine ⟨?_, ?_, ?_, ?_⟩ <;> simp
  unfold runCommonState
  split_ifs with hr
  · exact pass3_cinv _ _ _
      (pass2rev_cinv _ _ _ (pass2fwd_cinv _ _ _ (pass1_cinv _ _ _ h0)))
  · exact pass3_cinv _ _ _ (pass1_cinv _ _ _ h0)

/-! ### Pass-wise decompositions of the emitted common options (claim C6) -/

theorem pass1_common_extend (options2 : List Str) (l : List Str) :
    ∀ st, ∃ e, (pass1 options2 l st).common = st.common ++ e ∧
      List.Sublist e l := by
  induction l with
  | nil => intro st; exact ⟨[], by simp [pass1], List.nil_sublist _⟩
  | cons o1 rest ih =>
    intro st
    simp only [pass1]
    cases hf : findExactIdx options2 st.used (cleanOpt o1) with
    | none =>
      simp only [hf]
      obtain ⟨e, he, hs⟩ := ih st
      exact ⟨e, he, hs.cons o1⟩
    | some j =>
      simp only [hf]
      split_ifs with hadd
      · obtain ⟨e, he, hs⟩ := ih st
        exact ⟨e, he, hs.cons o1⟩
      · obtain ⟨e, he, hs⟩ := ih
          ⟨st.common ++ [o1], j :: st.used, cleanOpt o1 :: st.added,
           st.consumed ++ [j]⟩
        refine ⟨o1 :: e, ?_, hs.cons₂ o1⟩
        rw [he]
        simp

theorem pass2fwd_common_extend (options2 : List Str) (l : List Str) :
    ∀ st, ∃ e, (pass2fwd options2 l st).common = st.common ++ e ∧
      List.Sublist e l := by
  induction l with
  | nil => intro st; exact ⟨[], by simp [pass2fwd], List.nil_sublist _⟩
  | cons o1 rest ih =>
    intro st
    simp only [pass2fwd]
    by_cases hadd : cleanOpt o1 ∈ st.added
    · rw [if_pos hadd]
      obtain ⟨e, he, hs⟩ := ih st
      exact ⟨e, he, hs.cons o1⟩
    · rw [if_neg hadd]
      cases hv : extractValue o1 with
      | none =>
        simp only [hv]
        obtain ⟨e, he, hs⟩ := ih st
        exact ⟨e, he, hs.cons o1⟩
      | some v =>
        simp only [hv]
        cases hf : findRangeIdx options2 st.used v with
        | none =>
          simp only [hf]
          obtain ⟨e, he, hs⟩ := ih st
          exact ⟨e, he, hs.cons o1⟩
        | some j =>
          simp only [hf]
          rw [if_neg hadd]
          obtain ⟨e, he, hs⟩ := ih
            ⟨st.common ++ [o1], j :: st.used, cleanOpt o1 :: st.added,
             st.consumed ++ [j]⟩
          refine ⟨o1 :: e, ?_, hs.cons₂ o1⟩
          rw [he]
          simp

theorem pass2rev_common_extend (options1 : List Str) (l : List (Nat × Str)) :
    ∀ st, ∃ e, (pass2rev options1 l st).common = st.common ++ e ∧
      List.Sublist e (l.map Prod.snd) := by
  induction l with
  | nil => intro st; exact ⟨[], by simp [pass2rev], List.nil_sublist _⟩
  | cons p rest ih =>
    intro st
    obtain ⟨j, o2⟩ := p
    simp only [pass2rev, List.map_cons]
    by_cases hused : j ∈ st.used
    · rw [if_pos hused]
      obtain ⟨e, he, hs⟩ := ih st
      exact ⟨e, he, hs.cons o2⟩
    · rw [if_neg hused]
      cases hv : extractValue o2 with
      | none =>
        simp only [hv]
        obtain ⟨e, he, hs⟩ := ih st
        exact ⟨e, he, hs.cons o2⟩
      | some v =>
        simp only [hv]
        by_cases hany : (options1.any fun o1 => isValueInRange v o1) = true
        · rw [if_pos hany]
          by_cases hadd : cleanOpt o2 ∈ st.added
          · rw [if_pos hadd]
            obtain ⟨e, he, hs⟩ := ih st
            exact ⟨e, he, hs.cons o2⟩
          · rw [if_neg hadd]
            obtain ⟨e, he, hs⟩ := ih
              ⟨st.common ++ [o2], j :: st.used, cleanOpt o2 :: st.added,
               st.consumed ++ [j]⟩
            refine ⟨o2 :: e, ?_, hs.cons₂ o2⟩
            rw [he]
            simp
        · rw [if_neg hany]
          obtain ⟨e, he, hs⟩ := ih st
          exact ⟨e, he, hs.cons o2⟩

theorem pass3_common_extend (options2 : List Str) (l : List Str) :
    ∀ st, ∃ e, (pass3 options2 l st).common = st.common ++ e ∧
      List.Sublist e l := by
  induction l with
  | nil => intro st; exact ⟨[], by simp [pass3], List.nil_sublist _⟩
  | cons o1 rest ih =>
    intro st
    simp only [pass3]
    split_ifs with hadd
    · obtain ⟨e, he, hs⟩ := ih st
      exact ⟨e, he, hs.cons o1⟩
    · rcases pass3inner_cases o1 (cleanOpt o1) options2.enum st with heq | ⟨j, _, _, heq⟩
      · rw [heq]
        obtain ⟨e, he, hs⟩ := ih st
        exact ⟨e, he, hs.cons o1⟩
      · rw [heq]
        obtain ⟨e, he, hs⟩ := ih
          ⟨st.common ++ [o1], j :: st.used, cleanOpt o1 :: st.added,
           st.consumed ++ [j]⟩
        refine ⟨o1 :: e, ?_, hs.cons₂ o1⟩
        rw [he]
        simp

/-! ### Claim C6: duplicate-freedom and ordering of the common options -/

/-- Claim C6, counterexample: with source options 5 and 3mm and target
options 1 to 10 and 3mm for a thickness spec, the source value 3mm is
emitted by the exact pass before the range pass emits the source value
5, so the matched source values appear in the order 3mm, 5 — the
reverse of their source order, refuting the order half of the claim. -/
theorem commonOptions_source_order_cex :
    findCommonOptionsWithRangeMatching [str ("5"), str ("3mm")]
      [str ("1 to 10"), str ("3mm")] (str ("thickness")) = [str ("3mm"), str ("5")] ∧
    ¬ List.Sublist [str ("3mm"), str ("5")] [str ("5"), str ("3mm")] := by
  constructor
  · decide
  · decide

/-- Claim C6, amended: the list returned by commonOptions contains no
two values that are equal case-insensitively, and the output decomposes
into the emissions of the four passes — exact, forward range, reverse
range, semantic — each of which preserves the order of its side (source
order for the exact, forward-range and semantic passes, target order
for the reverse-range pass); source order holds within each pass but
not across passes. -/
theorem commonOptions_nodup_and_passwise_order
    (options1 options2 : List Str) (normName : Str) :
    ((findCommonOptionsWithRangeMatching options1 options2 normName).map lower).Nodup ∧
    ∃ e1 e2 e3 e4,
      findCommonOptionsWithRangeMatching options1 options2 normName =
        e1 ++ e2 ++ e3 ++ e4 ∧
      List.Sublist e1 options1 ∧ List.Sublist e2 options1 ∧
      List.Sublist e3 options2 ∧ List.Sublist e4 options1 := by
  constructor
  · exact nodup_lower_of_nodup_cleanOpt _
      (runCommonState_cinv options1 options2 normName).2.1
  · unfold findCommonOptionsWithRangeMatching runCommonState
    split_ifs with hr
    · obtain ⟨e1, he1, hs1⟩ := pass1_common_extend options2 options1 ⟨[], [], [], []⟩
      obtain ⟨e2, he2, hs2⟩ := pass2fwd_common_extend options2 options1 _
      obtain ⟨e3, he3, hs3⟩ := pass2rev_common_extend options1 options2.enum _
      obtain ⟨e4, he4, hs4⟩ := pass3_common_extend options2 options1 _
      rw [List.enum_map_snd] at hs3
      refine ⟨e1, e2, e3, e4, ?_, hs1, hs2, hs3, hs4⟩
      rw [he4, he3, he2, he1]
      simp
    · obtain ⟨e1, he1, hs1⟩ := pass1_common_extend options2 options1 ⟨[], [], [], []⟩
      obtain ⟨e4, he4, hs4⟩ := pass3_common_extend options2 options1 _
      refine ⟨e1, [], [], e4, ?_, hs1, List.nil_sublist _, List.nil_sublist _, hs4⟩
      rw [he4, he1]
      simp

/-! ### Invariants of the spec-reconciliation loop (claims C4, C7) -/

theorem findFirstMatch_not_matched {stage2 : List ISQ} {m2 : List Nat}
    {n : Str} {j : Nat} {s2 : ISQ}
    (h : findFirstMatch stage2 m2 n = some (j, s2)) : j ∉ m2 := by
  unfold findFirstMatch at h
  have hp := List.find?_some h
  simp only [Bool.and_eq_true, Bool.not_eq_true', decide_eq_false_iff_not] at hp
  exact hp.1

theorem reconcileLoop_rinv (stage2 : List ISQ) (l : List Stage1Spec) :
    ∀ st, RInv st → RInv (reconcileLoop stage2 l st) := by
  induction l with
  | nil => intro st h; exact h
  | cons s1 rest ih =>
    intro st h
    simp only [reconcileLoop]
    cases hf : findFirstMatch stage2 st.matched2 s1.spec_name with
    | none => simp only [hf]; exact ih st h
    | some pj =>
      obtain ⟨j, s2⟩ := pj
      simp only [hf]
      obtain ⟨h1, h2, h3⟩ := h
      have hju : j ∉ st.matched2 := findFirstMatch_not_matched hf
      apply ih
      refine ⟨?_, ?_, ?_⟩
      · rw [List.map_append, List.map_singleton, List.nodup_append]
        refine ⟨h1, List.nodup_singleton _, ?_⟩
        intro a ha hb
        rw [List.mem_singleton] at hb
        subst hb
        exact hju ((h2 a).mpr ha)
      · intro k
        simp only [List.mem_cons, List.map_append, List.map_singleton,
          List.mem_append, List.mem_singleton, h2 k]
        tauto
      · rw [h3]
        simp

theorem runReconcile_rinv (stage1 : List Stage1Spec) (stage2 : List ISQ) :
    RInv (runReconcile stage1 stage2) := by
  apply reconcileLoop_rinv
  refine ⟨?_, ?_, ?_⟩ <;> simp

/-! ### Claim C4: no double consumption of target-side indices -/

/-- Claim C4: in one run of the common-options scan no target index is
consumed twice across the exact, range and semantic passes — the ghost
log of consumed indices is duplicate-free — and in one run of the
reconciliation loop no Stage 2 spec is paired with two different
Stage 1 specs — the logged Stage 2 indices are duplicate-free. -/
theorem no_double_consumption (options1 options2 : List Str) (normName : Str)
    (stage1 : List Stage1Spec) (stage2 : List ISQ) :
    (runCommonState options1 options2 normName).consumed.Nodup ∧
    ((runReconcile stage1 stage2).log.map (fun e => e.2.1)).Nodup := by
  constructor
  · exact (runCommonState_cinv options1 options2 normName).2.2.1
  · exact (runReconcile_rinv stage1 stage2).1

/-! ### Claim C7: matched pairs with no common options are still emitted -/

theorem dedupByNameAux_name_mem (l : List CommonSpecItem) :
    ∀ seen (c : CommonSpecItem), c ∈ l →
      c.spec_name ∈ seen ∨
      ∃ e ∈ dedupByNameAux seen l, e.spec_name = c.spec_name := by
  induction l with
  | nil => intro seen c hc; exact absurd hc (List.not_mem_nil c)
  | cons d rest ih =>
    intro seen c hc
    simp only [dedupByNameAux]
    by_cases hd : d.spec_name ∈ seen
    · rw [if_pos hd]
      rcases List.mem_cons.mp hc with heq | hc2
      · rw [heq]
        exact Or.inl hd
      · exact ih seen c hc2
    · rw [if_neg hd]
      rcases List.mem_cons.mp hc with heq | hc2
      · refine Or.inr ⟨d, List.mem_cons_self _ _, ?_⟩
        rw [heq]
      · rcases ih (d.spec_name :: seen) c hc2 with hs | ⟨e, he, hen⟩
        · rcases List.mem_cons.mp hs with heq | hs2
          · exact Or.inr ⟨d, List.mem_cons_self _ _, heq.symm⟩
          · exact Or.inl hs2
        · exact Or.inr ⟨e, List.mem_cons_of_mem _ he, hen⟩

/-- Claim C7: every matched pair in the reconciliation log is emitted
as a common spec carrying the Stage 1 name and tier, even when the
common-options computation for the pair is empty; an entry with that
name also survives the duplicate-name filter into the final list. -/
theorem reconcile_emits_empty_common (stage1 : List Stage1Spec)
    (stage2 : List ISQ) (s1 : Stage1Spec) (j : Nat) (s2 : ISQ)
    (hmem : (s1, j, s2) ∈ (runReconcile stage1 stage2).log)
    (hempty : findCommonOptionsWithRangeMatching s1.options s2.options
      s1.normName = []) :
    mkCommonSpec s1 s2 ∈ (runReconcile stage1 stage2).commonSpecs ∧
    (mkCommonSpec s1 s2).options = [] ∧
    ∃ e ∈ extractCommonSpecs stage1 stage2, e.spec_name = s1.spec_name := by
  have hr := runReconcile_rinv stage1 stage2
  have hcs : (runReconcile stage1 stage2).commonSpecs =
      (runReconcile stage1 stage2).log.map (fun e => mkCommonSpec e.1 e.2.2) :=
    hr.2.2
  have hmem2 : mkCommonSpec s1 s2 ∈ (runReconcile stage1 stage2).commonSpecs := by
    rw [hcs]
    exact List.mem_map.mpr ⟨(s1, j, s2), hmem, rfl⟩
  refine ⟨hmem2, ?_, ?_⟩
  · exact hempty
  · have := dedupByNameAux_name_mem
      (runReconcile stage1 stage2).commonSpecs [] (mkCommonSpec s1 s2) hmem2
    rcases this with hs | ⟨e, he, hen⟩
    · exact absurd hs (List.not_mem_nil _)
    · exact ⟨e, he, hen⟩

theorem reconcile_emits_empty_common_witness :
    (mkCommonSpec
        (mkStage1Spec (str ("Material")) [str ("SS304"), str ("SS316")]
          (str ("single-select")) (str ("Primary")))
        ⟨str ("Composition"), [str ("Aluminium")]⟩ ∈
      (runReconcile
        [mkStage1Spec (str ("Material")) [str ("SS304"), str ("SS316")]
          (str ("single-select")) (str ("Primary"))]
        [⟨str ("Composition"), [str ("Aluminium")]⟩]).commonSpecs) ∧
    (mkCommonSpec
        (mkStage1Spec (str ("Material")) [str ("SS304"), str ("SS316")]
          (str ("single-select")) (str ("Primary")))
        ⟨str ("Composition"), [str ("Aluminium")]⟩).options = [] ∧
    ∃ e ∈ extractCommonSpecs
        [mkStage1Spec (str ("Material")) [str ("SS304"), str ("SS316")]
          (str ("single-select")) (str ("Primary"))]
        [⟨str ("Composition"), [str ("Aluminium")]⟩],
      e.spec_name = str ("Material") :=
  reconcile_emits_empty_common
    [mkStage1Spec (str ("Material")) [str ("SS304"), str ("SS316")]
      (str ("single-select")) (str ("Primary"))]
    [⟨str ("Composition"), [str ("Aluminium")]⟩]
    (mkStage1Spec (str ("Material")) [str ("SS304"), str ("SS316")]
      (str ("single-select")) (str ("Primary")))
    0 ⟨str ("Composition"), [str ("Aluminium")]⟩
    (by decide) (by decide)

/-! ### Claim C3: provenance and size of the buyer-facing option list -/

theorem fallback_lists_good :
    ∀ kv ∈ fallbacksTable, ((kv.2.map lower).Nodup ∧ 8 ≤ kv.2.length) := by
  decide

theorem getSmartFallbacks_good (n : Str) :
    ((getSmartFallbacks n).map lower).Nodup ∧ 8 ≤ (getSmartFallbacks n).length := by
  unfold getSmartFallbacks
  cases hf : fallbacksTable.find? (fun kv => includes n kv.1) with
  | none =>
    simp only [hf]
    exact (by decide :
      ((defaultFallbacks.map lower).Nodup ∧ 8 ≤ defaultFallbacks.length))
  | some kv =>
    simp only [hf]
    exact fallback_lists_good kv (List.mem_of_find?_eq_some hf)

theorem binv_push (opts fbs : List Str) (st : BState) (x : Str)
    (hlen : st.result.length < 8)
    (hx : (∃ o ∈ opts, x = trim o) ∨ x ∈ fbs)
    (h : BInv opts fbs st) :
    BInv opts fbs ⟨st.result ++ [x], lower x :: st.seen⟩ := by
  obtain ⟨h1, h2, h3, h4⟩ := h
  refine ⟨?_, ?_, ?_, ?_⟩
  · simp only [List.length_append, List.length_singleton]
    omega
  · simp [h2]
  · intro y
    simp only [List.mem_cons, List.map_append, List.map_singleton,
      List.mem_append, List.mem_singleton, h3 y]
    tauto
  · intro y hy
    rcases List.mem_append.mp hy with hm | hm
    · exact h4 y hm
    · rw [List.mem_singleton] at hm
      subst hm
      exact hx

theorem step1_binv (s2opts opts fbs : List Str) (l : List Str) :
    (∀ x ∈ l, x ∈ opts) →
    ∀ st, BInv opts fbs st → BInv opts fbs (step1 s2opts l st) := by
  induction l with
  | nil => intro _ st h; exact h
  | cons s1Opt rest ih =>
    intro hsub st h
    have hrest : ∀ x ∈ rest, x ∈ opts :=
      fun x hx => hsub x (List.mem_cons_of_mem _ hx)
    simp only [step1]
    by_cases hbr : st.result.length ≥ 8
    · rw [if_pos hbr]; exact h
    · rw [if_neg hbr]
      by_cases hc : (s2opts.any fun s2Opt =>
          decide (cleanOpt s2Opt = cleanOpt s1Opt)) = true
      · rw [if_pos hc]
        by_cases hseen : lower (trim s1Opt) ∈ st.seen
        · rw [if_pos hseen]; exact ih hrest st h
        · rw [if_neg hseen]
          exact ih hrest _ (binv_push opts fbs st (trim s1Opt) (by omega)
            (Or.inl ⟨s1Opt, hsub s1Opt (List.mem_cons_self _ _), rfl⟩) h)
      · rw [if_neg hc]; exact ih hrest st h

theorem step2_binv (opts fbs : List Str) (l : List Str) :
    (∀ x ∈ l, x ∈ opts) →
    ∀ st, BInv opts fbs st → BInv opts fbs (step2 l st) := by
  induction l with
  | nil => intro _ st h; exact h
  | cons s1Opt rest ih =>
    intro hsub st h
    have hrest : ∀ x ∈ rest, x ∈ opts :=
      fun x hx => hsub x (List.mem_cons_of_mem _ hx)
    simp only [step2]
    by_cases hbr : st.result.length ≥ 8
    · rw [if_pos hbr]; exact h
    · rw [if_neg hbr]
      by_cases hseen : lower (trim s1Opt) ∈ st.seen
      · rw [if_pos hseen]; exact ih hrest st h
      · rw [if_neg hseen]
        exact ih hrest _ (binv_push opts fbs st (trim s1Opt) (by omega)
          (Or.inl ⟨s1Opt, hsub s1Opt (List.mem_cons_self _ _), rfl⟩) h)

theorem step3_binv (opts fbs : List Str) (l : List Str) :
    (∀ x ∈ l, x ∈ fbs) →
    ∀ st, BInv opts fbs st → BInv opts fbs (step3 l st) := by
  induction l with
  | nil => intro _ st h; exact h
  | cons fb rest ih =>
    intro hsub st h
    have hrest : ∀ x ∈ rest, x ∈ fbs :=
      fun x hx => hsub x (List.mem_cons_of_mem _ hx)
    simp only [step3]
    by_cases hbr : st.result.length ≥ 8
    · rw [if_pos hbr]; exact h
    · rw [if_neg hbr]
      by_cases hseen : lower fb ∈ st.seen
      · rw [if_pos hseen]; exact ih hrest st h
      · rw [if_neg hseen]
        exact ih hrest _ (binv_push opts fbs st fb (by omega)
          (Or.inr (hsub fb (List.mem_cons_self _ _))) h)

theorem length_filter_partition {α : Type} (p : α → Bool) (l : List α) :
    (l.filter p).length + (l.filter (fun a => !(p a))).length = l.length := by
  induction l with
  | nil => rfl
  | cons a rest ih =>
    cases hpa : p a <;> simp [List.filter_cons, hpa] <;> omega

theorem step3_fills (l : List Str) :
    ∀ st : BState, (l.map lower).Nodup →
      st.result.length ≤ 8 →
      (∀ x, x ∈ st.seen ↔ x ∈ st.result.map lower) →
      8 ≤ st.result.length +
        (l.filter (fun fb => !(decide (lower fb ∈ st.seen)))).length →
      (step3 l st).result.length = 8 := by
  induction l with
  | nil =>
    intro st _ hlen _ hcount
    simp only [List.filter_nil, List.length_nil, Nat.add_zero] at hcount
    show st.result.length = 8
    omega
  | cons fb rest ih =>
    intro st hnd hlen hsync hcount
    simp only [List.map_cons, List.nodup_cons] at hnd
    simp only [step3]
    by_cases hbr : st.result.length ≥ 8
    · rw [if_pos hbr]
      omega
    · rw [if_neg hbr]
      by_cases hseen : lower fb ∈ st.seen
      · rw [if_pos hseen]
        apply ih st hnd.2 hlen hsync
        have hfc : (List.filter (fun x => !(decide (lower x ∈ st.seen))) (fb :: rest)) =
            List.filter (fun x => !(decide (lower x ∈ st.seen))) rest := by
          rw [List.filter_cons]
          simp [hseen]
        rw [hfc] at hcount
        exact hcount
      · rw [if_neg hseen]
        have hfc : (List.filter (fun x => !(decide (lower x ∈ st.seen))) (fb :: rest)) =
            fb :: List.filter (fun x => !(decide (lower x ∈ st.seen))) rest := by
          rw [List.filter_cons]
          simp [hseen]
        rw [hfc] at hcount
        have hcong : List.filter (fun x => !(decide (lower x ∈ lower fb :: st.seen))) rest =
            List.filter (fun x => !(decide (lower x ∈ st.seen))) rest := by
          apply List.filter_congr
          intro y hy
          have hne : lower y ≠ lower fb := by
            intro he
            exact hnd.1 (he ▸ List.mem_map_of_mem lower hy)
          simp only [List.mem_cons, decide_eq_true_eq]
          rw [Bool.eq_iff_iff]
          simp only [Bool.not_eq_true', decide_eq_false_iff_not]
          tauto
        apply ih ⟨st.result ++ [fb], lower fb :: st.seen⟩ hnd.2
        · simp only [List.length_append, List.length_singleton]
          omega
        · intro y
          simp only [List.mem_cons, List.map_append, List.map_singleton,
            List.mem_append, List.mem_singleton, hsync y]
          tauto
        · show 8 ≤ (st.result ++ [fb]).length + _
          rw [hcong]
          simp only [List.length_append, List.length_singleton,
            List.length_cons] at hcount ⊢
          omega

theorem count_precondition (fbs : List Str) (st : BState)
    (hnd : (fbs.map lower).Nodup) (hlen8 : 8 ≤ fbs.length)
    (hsync : ∀ x, x ∈ st.seen ↔ x ∈ st.result.map lower)
    (hslen : st.seen.length = st.result.length) :
    8 ≤ st.result.length +
      (fbs.filter (fun fb => !(decide (lower fb ∈ st.seen)))).length := by
  have hpart := length_filter_partition (fun fb => decide (lower fb ∈ st.seen)) fbs
  have hinnd : ((fbs.filter (fun fb => decide (lower fb ∈ st.seen))).map lower).Nodup :=
    List.Nodup.sublist ((List.filter_sublist _).map lower) hnd
  have hsubset : ((fbs.filter (fun fb => decide (lower fb ∈ st.seen))).map lower) ⊆
      st.seen := by
    intro y hy
    obtain ⟨z, hz, hzy⟩ := List.mem_map.mp hy
    have hzf := List.of_mem_filter hz
    rw [← hzy]
    exact of_decide_eq_true hzf
  have hle := (hinnd.subperm hsubset).length_le
  rw [List.length_map] at hle
  omega

theorem step2cond_binv (opts fbs : List Str) (st : BState)
    (h : BInv opts fbs st) :
    BInv opts fbs (if st.result.length < 8 then step2 opts st else st) := by
  split_ifs with hc
  · exact step2_binv opts fbs opts (fun x hx => hx) st h
  · exact h

theorem step3cond_binv (opts fbs : List Str) (st : BState)
    (h : BInv opts fbs st) :
    BInv opts fbs (if st.result.length < 8 then step3 fbs st else st) := by
  split_ifs with hc
  · exact step3_binv opts fbs fbs (fun x hx => hx) st h
  · exact h

theorem step3cond_len (opts fbs : List Str) (st : BState)
    (hnd : (fbs.map lower).Nodup) (hlen8 : 8 ≤ fbs.length)
    (h : BInv opts fbs st) :
    (if st.result.length < 8 then step3 fbs st else st).result.length = 8 := by
  split_ifs with hc
  · exact step3_fills fbs st hnd h.1 h.2.2.1
      (count_precondition fbs st hnd hlen8 h.2.2.1 h.2.1)
  · have := h.1
    omega

/-- Claim C3, counterexample: with no source options and no target
options at all, getBuyerISQOptions for a material spec still returns
eight options — drawn from the static fallback table, not from either
input list, refuting the claim that every returned option is drawn from
the source or target list. -/
theorem getBuyerISQOptions_fallback_cex :
    getBuyerISQOptions (str ("material")) [] [] =
      [str ("SS 304"), str ("SS 316"), str ("Mild Steel"), str ("Galvanized Iron"),
       str ("Aluminium"), str ("Copper"), str ("Brass"), str ("PVC")] := by
  decide

/-- Claim C3, amended: every option returned by getBuyerISQOptions is a
trimmed source option or an entry of the static fallback table selected
by the normalized name (matched common values first, then remaining
source options, then fallbacks); target options are never emitted
directly, and the returned list always has exactly eight options. -/
theorem getBuyerISQOptions_provenance_and_length (normName : Str)
    (stage1All stage2All : List SpecWithNorm) :
    (∀ x ∈ getBuyerISQOptions normName stage1All stage2All,
      (∃ o ∈ lookupOptions normName stage1All, x = trim o) ∨
      x ∈ getSmartFallbacks normName) ∧
    (getBuyerISQOptions normName stage1All stage2All).length = 8 := by
  have hfb := getSmartFallbacks_good normName
  have h0 : BInv (lookupOptions normName stage1All) (getSmartFallbacks normName)
      ⟨[], []⟩ := ⟨by simp, by simp, by simp, by simp⟩
  have h1 := step1_binv (lookupOptions normName stage2All)
    (lookupOptions normName stage1All) (getSmartFallbacks normName)
    (lookupOptions normName stage1All) (fun x hx => hx) ⟨[], []⟩ h0
  have h2 := step2cond_binv (lookupOptions normName stage1All)
    (getSmartFallbacks normName) _ h1
  have h3 := step3cond_binv (lookupOptions normName stage1All)
    (getSmartFallbacks normName) _ h2
  have hlen := step3cond_len (lookupOptions normName stage1All)
    (getSmartFallbacks normName) _ hfb.1 hfb.2 h2
  exact ⟨h3.2.2.2, hlen⟩

/-! ### Claim C10: idempotence of the Name Normalizer -/

theorem tokensAux_chars :
    ∀ (s acc : Str), (∀ c ∈ acc, isWs c = false) →
      ∀ w ∈ tokensAux s acc,
        w ≠ [] ∧ ∀ c ∈ w, isWs c = false ∧ (c ∈ s ∨ c ∈ acc) := by
  intro s
  induction s with
  | nil =>
    intro acc hacc w hw
    by_cases ha : acc = []
    · simp [tokensAux, ha] at hw
    · simp only [tokensAux, if_neg ha] at hw
      rw [List.mem_singleton] at hw
      subst hw
      refine ⟨by simpa using ha, ?_⟩
      intro c hc
      rw [List.mem_reverse] at hc
      exact ⟨hacc c hc, Or.inr hc⟩
  | cons c0 s ih =>
    intro acc hacc w hw
    simp only [tokensAux] at hw
    by_cases hws : isWs c0 = true
    · rw [if_pos hws] at hw
      by_cases ha : acc = []
      · rw [if_pos ha] at hw
        obtain ⟨hne, hch⟩ := ih [] (by simp) w hw
        refine ⟨hne, fun c hc => ?_⟩
        obtain ⟨h1, h2⟩ := hch c hc
        rcases h2 with h2 | h2
        · exact ⟨h1, Or.inl (List.mem_cons_of_mem _ h2)⟩
        · exact absurd h2 (List.not_mem_nil c)
      · rw [if_neg ha] at hw
        rcases List.mem_cons.mp hw with hw1 | hw2
        · subst hw1
          refine ⟨by simpa using ha, ?_⟩
          intro c hc
          rw [List.mem_reverse] at hc
          exact ⟨hacc c hc, Or.inr hc⟩
        · obtain ⟨hne, hch⟩ := ih [] (by simp) w hw2
          refine ⟨hne, fun c hc => ?_⟩
          obtain ⟨h1, h2⟩ := hch c hc
          rcases h2 with h2 | h2
          · exact ⟨h1, Or.inl (List.mem_cons_of_mem _ h2)⟩
          · exact absurd h2 (List.not_mem_nil c)
    · rw [if_neg hws] at hw
      have hacc2 : ∀ c ∈ (c0 :: acc : Str), isWs c = false := by
        intro c hc
        rcases List.mem_cons.mp hc with rfl | hc2
        · simpa using hws
        · exact hacc c hc2
      obtain ⟨hne, hch⟩ := ih (c0 :: acc) hacc2 w hw
      refine ⟨hne, fun c hc => ?_⟩
      obtain ⟨h1, h2⟩ := hch c hc
      rcases h2 with h2 | h2
      · exact ⟨h1, Or.inl (List.mem_cons_of_mem _ h2)⟩
      · rcases List.mem_cons.mp h2 with rfl | h3
        · exact ⟨h1, Or.inl (List.mem_cons_self _ _)⟩
        · exact ⟨h1, Or.inr h3⟩

theorem trim_subset (s : Str) : ∀ c ∈ trim s, c ∈ s := by
  intro c hc
  unfold trim at hc
  rw [List.mem_reverse] at hc
  have h1 := (List.dropWhile_sublist isWs).subset hc
  rw [List.mem_reverse] at h1
  exact (List.dropWhile_sublist isWs).subset h1

theorem clean_chars (x : Str) :
    ∀ c ∈ replacePunct (trim (lower x)),
      isPunctRepl c = false ∧ Char.toLower c = c := by
  intro c hc
  obtain ⟨d, hd, hdc⟩ := List.mem_map.mp hc
  by_cases hp : isPunctRepl d = true
  · rw [if_pos hp] at hdc
    subst hdc
    exact ⟨by decide, by decide⟩
  · rw [if_neg hp] at hdc
    subst hdc
    refine ⟨by simpa using hp, ?_⟩
    have hd2 := trim_subset (lower x) d hd
    obtain ⟨e, _, he⟩ := List.mem_map.mp hd2
    rw [← he]
    exact toLower_toLower e

theorem good_tokens_clean (x : Str) :
    ∀ u ∈ tokens (replacePunct (trim (lower x))),
      u ≠ [] ∧ ∀ c ∈ u,
        isWs c = false ∧ isPunctRepl c = false ∧ Char.toLower c = c := by
  intro u hu
  obtain ⟨hne, hch⟩ := tokensAux_chars _ [] (by simp) u hu
  refine ⟨hne, fun c hc => ?_⟩
  obtain ⟨h1, h2⟩ := hch c hc
  rcases h2 with h2 | h2
  · obtain ⟨h3, h4⟩ := clean_chars x c h2
    exact ⟨h1, h3, h4⟩
  · exact absurd h2 (List.not_mem_nil c)

theorem standardizeWord_result (w : Str) (hcw : w ≠ str ("constructor")) :
    standardizeWord w = w ∨
    standardizeWord w ∈ standardizations.map Prod.snd := by
  unfold standardizeWord
  cases h1 : standardizations.find? (fun kv => decide (kv.1 = w)) with
  | some kv =>
    exact Or.inr (List.mem_map_of_mem _ (List.mem_of_find?_eq_some h1))
  | none =>
    simp only [h1]
    rw [if_neg hcw]
    cases h2 : standardizations.find?
        (fun kv => includes w kv.1 || includes kv.1 w) with
    | some kv =>
      exact Or.inr (List.mem_map_of_mem _ (List.mem_of_find?_eq_some h2))
    | none => exact Or.inl rfl

theorem dict_values_fixed :
    ∀ v ∈ standardizations.map Prod.snd, standardizeWord v = v := by
  decide

theorem dict_values_good :
    ∀ v ∈ standardizations.map Prod.snd,
      v ≠ [] ∧ ∀ c ∈ v,
        isWs c = false ∧ isPunctRepl c = false ∧ Char.toLower c = c := by
  decide

theorem standardizeWord_idem (w : Str) (hcw : w ≠ str ("constructor")) :
    standardizeWord (standardizeWord w) = standardizeWord w := by
  rcases standardizeWord_result w hcw with h | h
  · rw [h]; exact h
  · exact dict_values_fixed _ h

theorem standardizeWord_good (w : Str) (hcw : w ≠ str ("constructor"))
    (hw : w ≠ [] ∧ ∀ c ∈ w,
      isWs c = false ∧ isPunctRepl c = false ∧ Char.toLower c = c) :
    standardizeWord w ≠ [] ∧ ∀ c ∈ standardizeWord w,
      isWs c = false ∧ isPunctRepl c = false ∧ Char.toLower c = c := by
  rcases standardizeWord_result w hcw with h | h
  · rw [h]; exact hw
  · exact dict_values_good _ h

theorem dedupFirstAux_spec {α : Type} [DecidableEq α] (l : List α) :
    ∀ seen : List α,
      (dedupFirstAux seen l).Nodup ∧
      ∀ a ∈ dedupFirstAux seen l, a ∈ l ∧ a ∉ seen := by
  induction l with
  | nil => intro seen; exact ⟨List.nodup_nil, by simp [dedupFirstAux]⟩
  | cons a rest ih =>
    intro seen
    simp only [dedupFirstAux]
    by_cases ha : a ∈ seen
    · rw [if_pos ha]
      obtain ⟨h1, h2⟩ := ih seen
      exact ⟨h1, fun b hb => ⟨List.mem_cons_of_mem _ (h2 b hb).1, (h2 b hb).2⟩⟩
    · rw [if_neg ha]
      obtain ⟨h1, h2⟩ := ih (a :: seen)
      refine ⟨?_, ?_⟩
      · rw [List.nodup_cons]
        refine ⟨fun hmem => ?_, h1⟩
        exact (h2 a hmem).2 (List.mem_cons_self _ _)
      · intro b hb
        rcases List.mem_cons.mp hb with rfl | hb2
        · exact ⟨List.mem_cons_self _ _, ha⟩
        · obtain ⟨hb3, hb4⟩ := h2 b hb2
          exact ⟨List.mem_cons_of_mem _ hb3,
            fun hbs => hb4 (List.mem_cons_of_mem _ hbs)⟩

theorem dedupFirstAux_eq_self {α : Type} [DecidableEq α] (l : List α) :
    ∀ seen : List α, l.Nodup → (∀ a ∈ l, a ∉ seen) →
      dedupFirstAux seen l = l := by
  induction l with
  | nil => intro seen _ _; rfl
  | cons a rest ih =>
    intro seen hnd hout
    rw [List.nodup_cons] at hnd
    simp only [dedupFirstAux]
    rw [if_neg (hout a (List.mem_cons_self _ _))]
    congr 1
    apply ih (a :: seen) hnd.2
    intro b hb
    intro hbs
    rcases List.mem_cons.mp hbs with rfl | hb2
    · exact hnd.1 hb
    · exact hout b (List.mem_cons_of_mem _ hb) hb2

theorem map_fixed_eq_self {α : Type} (f : α → α) (l : List α)
    (h : ∀ a ∈ l, f a = a) : l.map f = l := by
  induction l with
  | nil => rfl
  | cons a rest ih =>
    rw [List.map_cons, h a (List.mem_cons_self _ _),
      ih (fun b hb => h b (List.mem_cons_of_mem _ hb))]

theorem tokensAux_append_word (w : Str) (hw : ∀ c ∈ w, isWs c = false) :
    ∀ (s acc : Str), tokensAux (w ++ s) acc = tokensAux s (w.reverse ++ acc) := by
  induction w with
  | nil => intro s acc; rfl
  | cons c w2 ih =>
    intro s acc
    have hc : isWs c = false := hw c (List.mem_cons_self _ _)
    show (if isWs c then _ else tokensAux (w2 ++ s) (c :: acc)) = _
    rw [hc]
    simp only [Bool.false_eq_true, if_false]
    rw [ih (fun d hd => hw d (List.mem_cons_of_mem _ hd)) s (c :: acc)]
    congr 1
    simp

theorem tokensAux_space (s acc : Str) (hacc : acc ≠ []) :
    tokensAux (Char.ofNat 32 :: s) acc = acc.reverse :: tokensAux s [] := by
  show (if isWs (Char.ofNat 32) then _ else _) = _
  rw [(by decide : isWs (Char.ofNat 32) = true)]
  simp only [if_true]
  rw [if_neg hacc]

theorem tokens_joinSpaces (ts : List Str) :
    (∀ w ∈ ts, w ≠ [] ∧ ∀ c ∈ w, isWs c = false) →
    tokens (joinSpaces ts) = ts := by
  induction ts with
  | nil => intro _; rfl
  | cons w ws ih =>
    intro h
    have hw := h w (List.mem_cons_self _ _)
    cases ws with
    | nil => exact tokens_single w hw.1 hw.2
    | cons w2 ws2 =>
      show tokens (w ++ Char.ofNat 32 :: joinSpaces (w2 :: ws2)) = _
      unfold tokens
      rw [tokensAux_append_word w hw.2, List.append_nil,
        tokensAux_space _ _ (by simpa using hw.1), List.reverse_reverse]
      congr 1
      exact ih (fun u hu => h u (List.mem_cons_of_mem _ hu))

theorem joinSpaces_chars (ts : List Str) :
    ∀ c ∈ joinSpaces ts, (∃ w ∈ ts, c ∈ w) ∨ c = Char.ofNat 32 := by
  induction ts with
  | nil => intro c hc; exact absurd hc (List.not_mem_nil c)
  | cons w ws ih =>
    cases ws with
    | nil =>
      intro c hc
      exact Or.inl ⟨w, List.mem_cons_self _ _, hc⟩
    | cons w2 ws2 =>
      intro c hc
      show (∃ u ∈ w :: w2 :: ws2, c ∈ u) ∨ _
      rcases List.mem_append.mp hc with hm | hm
      · exact Or.inl ⟨w, List.mem_cons_self _ _, hm⟩
      · rcases List.mem_cons.mp hm with rfl | hm2
        · exact Or.inr rfl
        · rcases ih c hm2 with ⟨u, hu, hcu⟩ | hsp
          · exact Or.inl ⟨u, List.mem_cons_of_mem _ hu, hcu⟩
          · exact Or.inr hsp

theorem joinSpaces_ne_nil (ts : List Str) (hts : ts ≠ [])
    (h : ∀ w ∈ ts, w ≠ []) : joinSpaces ts ≠ [] := by
  cases ts with
  | nil => exact absurd rfl hts
  | cons w ws =>
    cases ws with
    | nil => exact h w (List.mem_cons_self _ _)
    | cons w2 ws2 =>
      show w ++ Char.ofNat 32 :: joinSpaces (w2 :: ws2) ≠ []
      simp

theorem dropWhile_eq_self_of_head (p : Char → Bool) (s : Str)
    (h : ∀ c, s.head? = some c → p c = false) : s.dropWhile p = s := by
  cases s with
  | nil => rfl
  | cons a l =>
    rw [List.dropWhile_cons, h a rfl]
    simp

theorem trim_eq_self_of_ends (s : Str)
    (h1 : ∀ c, s.head? = some c → isWs c = false)
    (h2 : ∀ c, s.getLast? = some c → isWs c = false) : trim s = s := by
  unfold trim
  rw [dropWhile_eq_self_of_head isWs s h1]
  rw [dropWhile_eq_self_of_head isWs s.reverse
    (fun c hc => h2 c (by rwa [List.head?_reverse] at hc))]
  exact List.reverse_reverse s

theorem mem_of_head?_eq {α : Type} {l : List α} {a : α}
    (h : l.head? = some a) : a ∈ l :=
  List.mem_of_mem_head? (Option.mem_def.mpr h)

theorem mem_of_getLast?_eq {α : Type} {l : List α} {a : α}
    (h : l.getLast? = some a) : a ∈ l := by
  have h2 : l.reverse.head? = some a := by rw [List.head?_reverse]; exact h
  exact List.mem_reverse.mp (mem_of_head?_eq h2)

theorem joinSpaces_head_not_ws (ts : List Str)
    (h : ∀ w ∈ ts, w ≠ [] ∧ ∀ c ∈ w, isWs c = false) :
    ∀ c, (joinSpaces ts).head? = some c → isWs c = false := by
  cases ts with
  | nil => intro c hc; simp [joinSpaces] at hc
  | cons w ws =>
    intro c hc
    obtain ⟨hne, hch⟩ := h w (List.mem_cons_self _ _)
    apply hch
    cases ws with
    | nil => exact mem_of_head?_eq hc
    | cons w2 ws2 =>
      cases w with
      | nil => exact absurd rfl hne
      | cons a w3 =>
        have ha : ((a :: w3 : Str) ++ Char.ofNat 32 :: joinSpaces (w2 :: ws2)).head? =
            some a := rfl
        have hcc : some a = some c := by rw [← ha]; exact hc
        rw [← Option.some_inj.mp hcc]
        exact List.mem_cons_self _ _

theorem joinSpaces_last_not_ws (ts : List Str) :
    (∀ w ∈ ts, w ≠ [] ∧ ∀ c ∈ w, isWs c = false) →
    ∀ c, (joinSpaces ts).getLast? = some c → isWs c = false := by
  induction ts with
  | nil => intro _ c hc; simp [joinSpaces] at hc
  | cons w ws ih =>
    intro h c hc
    obtain ⟨hne, hch⟩ := h w (List.mem_cons_self _ _)
    cases ws with
    | nil => exact hch c (mem_of_getLast?_eq hc)
    | cons w2 ws2 =>
      have hJne : joinSpaces (w2 :: ws2) ≠ [] :=
        joinSpaces_ne_nil _ (by simp)
          (fun u hu => (h u (List.mem_cons_of_mem _ hu)).1)
      have hjoin : joinSpaces (w :: w2 :: ws2) =
          w ++ Char.ofNat 32 :: joinSpaces (w2 :: ws2) := rfl
      rw [hjoin, List.getLast?_append] at hc
      cases hJ : joinSpaces (w2 :: ws2) with
      | nil => exact absurd hJ hJne
      | cons c0 J2 =>
        rw [hJ, List.getLast?_cons_cons] at hc
        cases hgl : (c0 :: J2 : Str).getLast? with
        | none => simp [List.getLast?_cons_cons] at hgl
        | some d =>
          rw [hgl] at hc
          have hdc : d = c := Option.some_inj.mp hc
          subst hdc
          exact ih (fun u hu => h u (List.mem_cons_of_mem _ hu)) d
            (by rw [hJ]; exact hgl)

theorem normalize_fixed_tokens (ts : List Str)
    (hG : ∀ w ∈ ts, w ≠ [] ∧ ∀ c ∈ w,
      isWs c = false ∧ isPunctRepl c = false ∧ Char.toLower c = c)
    (hF2 : ∀ w ∈ ts, standardizeWord w = w)
    (hF3 : ts.Nodup)
    (hF4 : ∀ w ∈ ts, decide (w ∉ fillerWords) = true) :
    normalizeSpecName (joinSpaces ts) = joinSpaces ts := by
  have hGW : ∀ w ∈ ts, w ≠ [] ∧ ∀ c ∈ w, isWs c = false :=
    fun w hw => ⟨(hG w hw).1, fun c hc => ((hG w hw).2 c hc).1⟩
  have eq2 : trim (joinSpaces ts) = joinSpaces ts :=
    trim_eq_self_of_ends _ (joinSpaces_head_not_ws ts hGW)
      (joinSpaces_last_not_ws ts hGW)
  have hlower : lower (joinSpaces ts) = joinSpaces ts := by
    apply lower_eq_self
    intro c hc
    rcases joinSpaces_chars ts c hc with ⟨w, hw, hcw⟩ | hsp
    · exact ((hG w hw).2 c hcw).2.2
    · rw [hsp]; decide
  have hpunct : replacePunct (joinSpaces ts) = joinSpaces ts := by
    apply replacePunct_eq_self
    intro c hc
    rcases joinSpaces_chars ts c hc with ⟨w, hw, hcw⟩ | hsp
    · exact ((hG w hw).2 c hcw).2.1
    · rw [hsp]; decide
  have hde : dedupFirst ts = ts :=
    dedupFirstAux_eq_self ts [] hF3 (fun a _ => List.not_mem_nil a)
  simp only [normalizeSpecName]
  rw [hlower, eq2, hpunct, tokens_joinSpaces ts hGW,
    map_fixed_eq_self standardizeWord ts hF2, hde,
    List.filter_eq_self.mpr hF4]
  exact eq2

/-- Claim C10, counterexample: name normalization is not idempotent
for every string.  For the input constructor, the truthy property test
hits the inherited Object.prototype.constructor and the program emits
the stringified Object function; normalizing that output again
lower-cases its capital letter and turns its parentheses into spaces,
producing a different string. -/
theorem normalize_idempotent_cex :
    ¬ normalizeSpecName (normalizeSpecName (str ("constructor"))) =
      normalizeSpecName (str ("constructor")) := by
  decide

/-- Claim C10, amended: name normalization is idempotent on every
string none of whose cleaned tokens is the word constructor — for such
x, normalize(normalize(x)) equals normalize(x).  Every token of such a
normalized name is a fixed point of the per-token pipeline: it is a
canonical dictionary value or an untouched word, free of whitespace,
replaced punctuation and upper-case letters, not a filler word, and the
token list is duplicate-free, so the second run reproduces it.  The
sole exception is the token constructor, whose prototype-chain lookup
produces a non-fixed-point output. -/
theorem normalize_idempotent_of_no_constructor (x : Str)
    (hx : str ("constructor") ∉ tokens (replacePunct (trim (lower x)))) :
    normalizeSpecName (normalizeSpecName x) = normalizeSpecName x := by
  have hG : ∀ w ∈ (dedupFirst ((tokens (replacePunct (trim (lower x)))).map
        standardizeWord)).filter (fun w => decide (w ∉ fillerWords)),
      w ≠ [] ∧ ∀ c ∈ w,
        isWs c = false ∧ isPunctRepl c = false ∧ Char.toLower c = c := by
    intro w hw
    have hw1 := List.mem_of_mem_filter hw
    have hw2 := ((dedupFirstAux_spec
      ((tokens (replacePunct (trim (lower x)))).map standardizeWord) []).2 w hw1).1
    obtain ⟨u, hu, huw⟩ := List.mem_map.mp hw2
    rw [← huw]
    exact standardizeWord_good u (fun heq => hx (heq ▸ hu))
      (good_tokens_clean x u hu)
  have hF2 : ∀ w ∈ (dedupFirst ((tokens (replacePunct (trim (lower x)))).map
        standardizeWord)).filter (fun w => decide (w ∉ fillerWords)),
      standardizeWord w = w := by
    intro w hw
    have hw1 := List.mem_of_mem_filter hw
    have hw2 := ((dedupFirstAux_spec
      ((tokens (replacePunct (trim (lower x)))).map standardizeWord) []).2 w hw1).1
    obtain ⟨u, hu, huw⟩ := List.mem_map.mp hw2
    rw [← huw]
    exact standardizeWord_idem u (fun heq => hx (heq ▸ hu))
  have hF3 : ((dedupFirst ((tokens (replacePunct (trim (lower x)))).map
        standardizeWord)).filter (fun w => decide (w ∉ fillerWords))).Nodup :=
    List.Nodup.sublist (List.filter_sublist _)
      ((dedupFirstAux_spec _ []).1)
  have hF4 : ∀ w ∈ (dedupFirst ((tokens (replacePunct (trim (lower x)))).map
        standardizeWord)).filter (fun w => decide (w ∉ fillerWords)),
      decide (w ∉ fillerWords) = true := by
    intro w hw
    have h5 := List.of_mem_filter hw
    exact h5
  have hGW : ∀ w ∈ (dedupFirst ((tokens (replacePunct (trim (lower x)))).map
        standardizeWord)).filter (fun w => decide (w ∉ fillerWords)),
      w ≠ [] ∧ ∀ c ∈ w, isWs c = false :=
    fun w hw => ⟨(hG w hw).1, fun c hc => ((hG w hw).2 c hc).1⟩
  have heq : normalizeSpecName x =
      joinSpaces ((dedupFirst ((tokens (replacePunct (trim (lower x)))).map
        standardizeWord)).filter (fun w => decide (w ∉ fillerWords))) := by
    show trim (joinSpaces _) = _
    exact trim_eq_self_of_ends _ (joinSpaces_head_not_ws _ hGW)
      (joinSpaces_last_not_ws _ hGW)
  rw [heq]
  exact normalize_fixed_tokens _ hG hF2 hF3 hF4

theorem normalize_idempotent_of_no_constructor_witness :
    normalizeSpecName (normalizeSpecName (str ("Thk (mm)"))) =
      normalizeSpecName (str ("Thk (mm)")) :=
  normalize_idempotent_of_no_constructor (str ("Thk (mm)")) (by decide)

end BuyerSpec
